import Mathlib

/-!
Verification of the ChileCensusDP TopDown engine.

This file gives a shallow embedding in Lean 4 of the parts of the repository
that the verified claims are about: the histogram builder and canonical
permutation (geographic_tree.construct_contingency_vector,
top_down.compute_permutation), the geographic tree construction
(geographic_tree.construct_tree) including the materialization of edit
constraint templates, the measurement phase (top_down/geographic_tree
apply_noise with the discrete Gaussian / discrete Laplace mechanisms),
the two-stage estimation (optimizer.non_negative_real_estimation,
optimizer.rounding_estimation, top_down.root_estimation,
top_down.recursive_estimation), the microdata reconstruction
(top_down.recursive_construct_microdata), the consistency checker
(top_down.check_correctness_node), and the pieces of configuration handling
and the resume path that the claims mention.

Modelling conventions:
  - pandas DataFrames are lists of records; a record is an association list
    from column names to integer values (the source compares raw values by
    exact equality, so any type with decidable equality is faithful).
  - numpy float vectors are lists of rationals; machine-integer counts are
    naturals cast into the rationals where they enter a vector.
  - the external Gurobi solver is an explicit function parameter; an
    infeasible model is the value none.  The properties Gurobi guarantees of
    a returned solution (it satisfies the model constraints, it has the
    requested dimension) appear as hypotheses of the theorems.
  - Python exceptions that the source can raise on the modelled paths
    (calling len on None, subscripting None, calling None, an out-of-range
    list index, a wrong-arity call, an explicit ValueError) are an explicit
    error monad value of type PyError.
  - edit constraints are Bool-valued predicates on a vector, and the
    configured constraint templates are Bool-valued functions of the vector
    and the captured total record count, mirroring the lambda(v, t) shape in
    main.py and config.py.
-/

/-- Column values of the census table.  The source admits numbers or strings
compared by exact equality; integers are a faithful carrier. -/
abbrev Val := Int

/-- One row of the data table, as the mapping from the read column names to
their values. -/
abbrev Rec := List (String × Val)

/-- One cell of the canonical permutation: a tuple of query-attribute
values, listed in query-column order. -/
abbrev Tuple := List Val

/-- Contingency vectors and solver vectors.  numpy float vectors are
modelled over the rationals. -/
abbrev Vec := List ℚ

/-- Value of a column in a record, as pandas row lookup (all modelled frames
carry the columns they are asked for). -/
def lookupCol (r : Rec) (c : String) : Val :=
  ((r.find? (fun p => p.1 = c)).map (fun p => p.2)).getD 0

/-- Projection of a record onto the query columns, in query order. -/
def projQ (queries : List String) (r : Rec) : Tuple :=
  queries.map (fun c => lookupCol r c)

/-- Accumulator form of pandas Series.unique: keep the first occurrence of
each value, in order of first appearance. -/
def pdUniqueAux : List Val → List Val → List Val
  | [], _ => []
  | x :: xs, seen => if x ∈ seen then pdUniqueAux xs seen else x :: pdUniqueAux xs (x :: seen)

/-- pandas Series.unique: the distinct values in order of first
appearance. -/
def pdUnique (l : List Val) : List Val :=
  pdUniqueAux l []

/-- itertools.product over the per-column unique-value lists: the full
Cartesian product, last column varying fastest. -/
def pyProduct : List (List Val) → List Tuple
  | [] => [[]]
  | l :: ls => (l.map (fun x => (pyProduct ls).map (fun t => x :: t))).flatten

/-- Lexicographic comparison of value tuples, as DataFrame.sort_values on
the query columns orders the rows of the permutation frame. -/
def lexLe : Tuple → Tuple → Bool
  | [], _ => true
  | _ :: _, [] => false
  | x :: xs, y :: ys => if x < y then true else if y < x then false else lexLe xs ys

/-- Insertion step of the lexicographic sort. -/
def insertLex (x : Tuple) : List Tuple → List Tuple
  | [] => [x]
  | y :: ys => if lexLe x y then x :: y :: ys else y :: insertLex x ys

/-- Sorting of the permutation frame by the query columns
(DataFrame.sort_values; the rows are distinct tuples so stability is
irrelevant, and any comparison sort has the same graph). -/
def lexSort : List Tuple → List Tuple
  | [] => []
  | x :: xs => insertLex x (lexSort xs)

/-- TopDown.compute_permutation: take the unique values of each query
column, form the Cartesian product, and sort the rows lexicographically by
the query columns. -/
def compute_permutation (data : List Rec) (columns : List String) : List Tuple :=
  lexSort (pyProduct (columns.map (fun c => pdUnique (data.map (fun r => lookupCol r c)))))

/-- GeographicTree.construct_contingency_vector: group the frame by the
query columns, count occurrences, left-merge onto the permutation frame
filling absent cells with 0, and pivot back to a flat integer vector.  For
a permutation frame that is a lexicographically sorted full product (as
compute_permutation produces), the pivot re-emits the counts in the
permutation's own row order, which is what this composite computes. -/
def construct_contingency_vector (df : List Rec) (permutation : List Tuple) (queries : List String) : Vec :=
  permutation.map (fun cell => ((df.countP (fun r => projQ queries r = cell) : ℕ) : ℚ))

/-- Edit-constraint template from the configuration: a Bool-valued
predicate of the contingency vector and the total record count, written
lambda(contingency_vector, total_population) in main.py. -/
abbrev Tmpl := Vec → Nat → Bool

/-- Materialized per-node edit constraint: a closed predicate of the
vector. -/
abbrev NodeCons := Vec → Bool

/-- Materialization of the constraint templates for one node, modelling the
Python list comprehension
[(lambda array, value=n: constraint(array, value)) for constraint in templates]
from geographic_tree.construct_tree and top_down.init_routine.  The default
argument captures value at creation time, but the name constraint is a free
variable of each lambda, resolved at call time in the comprehension scope,
where it holds the final element of templates once the comprehension has
finished.  Every stored closure therefore evaluates the last template. -/
def materializeConstraints (templates : List Tmpl) (t : Nat) : List NodeCons :=
  templates.map (fun _ => fun array => (templates.getLastD (fun _ _ => true)) array t)

/-- Node of the geographic tree: the id of the geographic cell, the
geographic_values label map, the ordered children, the contingency vector
and the materialized edit constraints. -/
inductive GNode where
  | mk (id : Val) (geographic_values : List (String × Val)) (children : List GNode)
      (contingency_vector : Vec) (constraints : List NodeCons)

/-- Identifier of the node's geographic cell. -/
def GNode.id : GNode → Val
  | .mk i _ _ _ _ => i

/-- Label map of the node. -/
def GNode.geographic_values : GNode → List (String × Val)
  | .mk _ g _ _ _ => g

/-- Ordered children of the node. -/
def GNode.children : GNode → List GNode
  | .mk _ _ cs _ _ => cs

/-- Contingency vector of the node. -/
def GNode.contingency_vector : GNode → Vec
  | .mk _ _ _ v _ => v

/-- Materialized edit constraints of the node. -/
def GNode.constraints : GNode → List NodeCons
  | .mk _ _ _ _ k => k

mutual
/-- All nodes of the subtree rooted here, the root first. -/
def GNode.nodes : GNode → List GNode
  | .mk i g cs v k => .mk i g cs v k :: gnodesList cs
  termination_by structural t => t
/-- All nodes of the subtrees in the list. -/
def gnodesList : List GNode → List GNode
  | [] => []
  | n :: ns => n.nodes ++ gnodesList ns
  termination_by structural l => l
end

mutual
/-- Leaves of the subtree rooted here, left to right. -/
def GNode.leaves : GNode → List GNode
  | .mk i g cs v k => if cs.isEmpty then [.mk i g cs v k] else gleavesList cs
  termination_by structural t => t
/-- Leaves of the subtrees in the list. -/
def gleavesList : List GNode → List GNode
  | [] => []
  | n :: ns => n.leaves ++ gleavesList ns
  termination_by structural l => l
end

/-- Templates configured for one geographic column (constraints_dict lookup;
columns outside the dictionary raise KeyError in Python, never reached on
the modelled runs, so the empty list stands for an absent key). -/
def lookupTemplates (constraints_dict : List (String × List Tmpl)) (c : String) : List Tmpl :=
  ((constraints_dict.find? (fun p => p.1 = c)).map (fun p => p.2)).getD []

/-- Fuelled body of GeographicTree.construct_tree.  The fuel counts the
geographic levels still to be built; construct_tree instantiates it with
the number of present geographic columns below the current level, which is
exactly the depth of the Python recursion (each recursive call filters the
frame, keeping its schema, and moves one level down). -/
def construct_tree_fuel (permutation : List Tuple) (present_geo_columns : List String)
    (queries : List String) (constraints_dict : List (String × List Tmpl)) :
    Nat → Nat → List Rec → List GNode
  | 0, _, _ => []
  | fuel + 1, current_level, df =>
    (pdUnique (df.map (fun r => lookupCol r (present_geo_columns.getD current_level "")))).map
      (fun location_id =>
        let filtered_df := df.filter (fun r => lookupCol r (present_geo_columns.getD current_level "") = location_id)
        GNode.mk location_id
          ((present_geo_columns.take (current_level + 1)).map
            (fun geo_label => (geo_label, (pdUnique (filtered_df.map (fun r => lookupCol r geo_label))).getD 0 0)))
          (construct_tree_fuel permutation present_geo_columns queries constraints_dict fuel (current_level + 1) filtered_df)
          (construct_contingency_vector filtered_df permutation queries)
          (materializeConstraints (lookupTemplates constraints_dict (present_geo_columns.getD current_level "")) filtered_df.length))

/-- GeographicTree.construct_tree: children of the current node, one per
distinct value of the geographic column of the current level, each carrying
its accumulated labels, its contingency vector built from the filtered
frame, its materialized constraints closed over the filtered frame's row
count, and its recursively built children.  df_columns models df.columns,
from which the prefix of geographic columns present in the frame is
computed. -/
def construct_tree (current_level : Nat) (df : List Rec) (df_columns : List String)
    (permutation : List Tuple) (geo_columns : List String) (queries : List String)
    (constraints_dict : List (String × List Tmpl)) : List GNode :=
  let present_geo_columns := geo_columns.takeWhile (fun c => c ∈ df_columns)
  construct_tree_fuel permutation present_geo_columns queries constraints_dict
    (present_geo_columns.length - current_level) current_level df

/-- Python exceptions raised on the modelled paths. -/
inductive PyError where
  /-- TypeError from len(None), raised by rounding_estimation when Stage 1
  returned None. -/
  | lenOfNone
  /-- TypeError from subscripting None, raised when the joint solution of an
  infeasible Stage 2 is sliced in recursive_estimation. -/
  | subscriptOfNone
  /-- TypeError from calling None, raised in apply_noise when no noise
  mechanism was set. -/
  | callOfNone
  /-- IndexError from indexing past the end of a Python list. -/
  | indexOutOfRange
  /-- TypeError from calling a function with the wrong number of positional
  arguments. -/
  | arityMismatch
  /-- ValueError raised explicitly by compare_vectors on an unknown distance
  metric. -/
  | valueError
deriving DecidableEq, Repr

/-- Noise mechanism selected by the configuration, the target of
TopDown.set_mechanism. -/
inductive Mech where
  | discrete_gaussian
  | discrete_laplace
deriving DecidableEq, Repr

/-- TopDown.set_mechanism: bind the mechanism attribute on the two known
names; any other name leaves the attribute at its initial None. -/
def set_mechanism (mechanism : String) : Option Mech :=
  if mechanism = "discrete_gaussian" then some Mech.discrete_gaussian
  else if mechanism = "discrete_laplace" then some Mech.discrete_laplace
  else none

/-- TopDown.set_privacy_parameters: store the vector as given; the source
performs no validation of its length or contents. -/
def set_privacy_parameters (privacy_parameters : List ℚ) : List ℚ :=
  privacy_parameters

/-- Family of integer noise samples: the exact-integer discrete
Gaussian/Laplace samplers of the external discretegauss module, indexed by
the sampler parameter actually passed and the position of the draw.  The
theorems hold for every such family. -/
abbrev SampleFamily := ℚ → Nat → Int

/-- TopDown.discrete_gaussian: add an integer sample sample_dgauss(rho) to
every cell of the vector. -/
def discrete_gaussian (sample_dgauss : SampleFamily) (contingency_vector : Vec) (rho : ℚ) : Vec :=
  contingency_vector.enum.map (fun p => p.2 + ((sample_dgauss rho p.1 : Int) : ℚ))

/-- TopDown.discrete_laplace: add an integer sample sample_dlaplace(1/epsilon)
to every cell of the vector; the sampler is invoked with scale 1/epsilon. -/
def discrete_laplace (sample_dlaplace : SampleFamily) (contingency_vector : Vec) (epsilon : ℚ) : Vec :=
  contingency_vector.enum.map (fun p => p.2 + ((sample_dlaplace (1 / epsilon) p.1 : Int) : ℚ))

/-- Dispatch of the selected mechanism to its sampling function, as the
noise_mechanism attribute carries one of the two bound methods. -/
def mechanismFun (m : Mech) (fam : SampleFamily) : Vec → ℚ → Vec :=
  match m with
  | Mech.discrete_gaussian => discrete_gaussian fam
  | Mech.discrete_laplace => discrete_laplace fam

mutual
/-- GeographicTree.apply_noise: breadth-first over the tree, each node at
level d gets mechanism(v, rhos[d]) applied to its vector.  The traversal is
modelled depth-first with the level passed down, which reaches every node
at the same level with the same parameter as the breadth-first queue of the
source; indexing rhos past its end is the IndexError the source would
raise.  The sample family is made distinct per node through the node's
position key so that cells draw independent samples. -/
def GNode.apply_noise (mech : Vec → ℚ → Vec) (rhos : List ℚ) : Nat → GNode → Except PyError GNode
  | current_level, .mk i g cs v k =>
    if h : current_level < rhos.length then
      match applyNoiseList mech rhos (current_level + 1) cs with
      | Except.error e => Except.error e
      | Except.ok cs2 => Except.ok (.mk i g cs2 (mech v (rhos.get ⟨current_level, h⟩)) k)
    else Except.error PyError.indexOutOfRange
  termination_by structural _ t => t
/-- Noise application over a list of sibling subtrees. -/
def applyNoiseList (mech : Vec → ℚ → Vec) (rhos : List ℚ) : Nat → List GNode → Except PyError (List GNode)
  | _, [] => Except.ok []
  | current_level, n :: ns =>
    match GNode.apply_noise mech rhos current_level n with
    | Except.error e => Except.error e
    | Except.ok n2 =>
      match applyNoiseList mech rhos current_level ns with
      | Except.error e => Except.error e
      | Except.ok ns2 => Except.ok (n2 :: ns2)
  termination_by structural _ l => l
end

/-- Diagnostics the optimizer emits on an infeasible model: the printed
message naming the node and the written model file. -/
inductive Diag where
  | infeasibleMsg (id_node : Val)
  | modelWrite
deriving DecidableEq, Repr

/-- Stage-1 solver interface: given the target vector and the model
constraints, Gurobi returns an optimal nonnegative real vector or reports
infeasibility (none).  The quadratic objective is determined by the target
vector, so it is not a separate argument. -/
abbrev Stage1Solver := Vec → List NodeCons → Option Vec

/-- Stage-2 solver interface: given the floor vector, the rounding residual
(which determines the objective) and the model constraints over
x_floor + y, Gurobi returns an optimal binary vector y or reports
infeasibility (none). -/
abbrev Stage2Solver := Vec → Vec → List NodeCons → Option Vec

/-- Cellwise sum of two vectors (numpy broadcasting on equal shapes). -/
def addVec (a b : Vec) : Vec :=
  (a.zip b).map (fun p => p.1 + p.2)

/-- Cellwise difference of two vectors. -/
def subVec (a b : Vec) : Vec :=
  (a.zip b).map (fun p => p.1 - p.2)

/-- numpy floor of a vector. -/
def floorVec (a : Vec) : Vec :=
  a.map (fun q => ((⌊q⌋ : Int) : ℚ))

/-- OptimizationModel.non_negative_real_estimation: build the Stage-1 model
for the node and run it; on infeasibility print the diagnostic naming the
node, write the model file and return None. -/
def non_negative_real_estimation (solver : Stage1Solver) (contingency_vector : Vec)
    (id_node : Val) (constraints : List NodeCons) : Option Vec × List Diag :=
  match solver contingency_vector constraints with
  | none => (none, [Diag.infeasibleMsg id_node, Diag.modelWrite])
  | some x => (some x, [])

/-- OptimizationModel.rounding_estimation: n = len(x_tilde) raises TypeError
when Stage 1 returned None; otherwise build the rounding model over
x_floor + y and run it, returning x_floor + y on success and None (after
the diagnostic and the model write) on infeasibility. -/
def rounding_estimation (solver : Stage2Solver) (x_tilde : Option Vec) (id_node : Val)
    (constraints : List NodeCons) : Except PyError (Option Vec × List Diag) :=
  match x_tilde with
  | none => Except.error PyError.lenOfNone
  | some xt =>
    let x_floor := floorVec xt
    let residual_round := subVec xt x_floor
    match solver x_floor residual_round constraints with
    | none => Except.ok (none, [Diag.infeasibleMsg id_node, Diag.modelWrite])
    | some y => Except.ok (some (addVec x_floor y), [])

/-- TopDown.root_estimation: run Stage 1 then Stage 2 on the root vector
with the root constraints and assign the Stage-2 result (possibly None) to
the root's contingency vector.  The value of the pair is the assigned
vector; the list collects the diagnostics printed along the way, and the
error case is the propagated Python exception. -/
def root_estimation (s1 : Stage1Solver) (s2 : Stage2Solver) (root : GNode) :
    List Diag × Except PyError (Option Vec) :=
  let step1 := non_negative_real_estimation s1 root.contingency_vector root.id root.constraints
  match rounding_estimation s2 step1.1 root.id root.constraints with
  | Except.error e => (step1.2, Except.error e)
  | Except.ok r => (step1.2 ++ r.2, Except.ok r.1)

/-- Python slice x[s:e]. -/
def pySlice (l : Vec) (s e : Nat) : Vec :=
  (l.take e).drop s

/-- Fuelled extended slice: take the head, then step forward.  The fuel
bounds the number of elements taken; any fuel at least the length of the
list gives the Python value. -/
def strideTake : Nat → Vec → Nat → Vec
  | 0, _, _ => []
  | _ + 1, [], _ => []
  | fuel + 1, a :: rest, step => a :: strideTake fuel ((a :: rest).drop step) step

/-- Python extended slice l[start::step] for positive step: the elements at
positions start, start+step, start+2*step, ... -/
def pyStride (l : Vec) (start step : Nat) : Vec :=
  strideTake l.length (l.drop start) step

/-- Local edit constraints of the children lifted to the concatenated
vector, as built in TopDown.recursive_estimation: for child i (slices of
width vectors_length) and each of its constraints c, the predicate
x maps-to c(x[s:e]) with s, e and c captured by default arguments. -/
def liftedConstraints (vectors_length : Nat) (children : List GNode) : List NodeCons :=
  (children.enum.map
    (fun p => p.2.constraints.map
      (fun c => fun x => c (pySlice x (p.1 * vectors_length) (p.1 * vectors_length + vectors_length))))).flatten

/-- Hierarchical consistency constraints of TopDown.recursive_estimation:
for every cell index, the strided slice of the joint vector over the
children must sum to the parent's (already fixed) entry at that index, the
parent entry captured by a default argument at construction time. -/
def consistencyConstraints (vectors_length : Nat) (parent_vector : Vec) : List NodeCons :=
  (List.range vectors_length).map
    (fun index => fun joint_vector =>
      decide ((pyStride joint_vector index vectors_length).sum = parent_vector.getD index 0))

/-- Concatenation of the children's contingency vectors
(np.concatenate in TopDown.recursive_estimation). -/
def jointVector (children : List GNode) : Vec :=
  (children.map (fun c => c.contingency_vector)).flatten

/-- Splitting loop of TopDown.recursive_estimation: successive slices
[start : start + vectors_length] of the joint solution, one per child. -/
def splitJoint (vectors_length : Nat) : Nat → Vec → List Vec
  | 0, _ => []
  | m + 1, sol => sol.take vectors_length :: splitJoint vectors_length m (sol.drop vectors_length)

mutual
/-- TopDown.recursive_estimation, one queue entry: the node has just had
new_vector assigned to its contingency vector by its parent's pass (or by
the root pass).  Nodes without children are skipped.  Otherwise the joint
vector of the children's noisy vectors is estimated under the lifted child
constraints plus the consistency constraints against new_vector, the joint
solution is split and assigned to the children, and the children are
processed in turn.  A None from Stage 1 raises inside rounding_estimation
(len of None); a None joint solution raises on slicing.  The breadth-first
queue of the source is modelled by this recursion: the children's passes
read only their own subtrees, so the processing order does not affect the
final tree. -/
def recursive_estimation (s1 : Stage1Solver) (s2 : Stage2Solver) (vectors_length : Nat) :
    GNode → Vec → Except PyError GNode
  | .mk i g cs _ k, new_vector =>
    if cs.isEmpty then Except.ok (.mk i g cs new_vector k)
    else
      let constraints := liftedConstraints vectors_length cs ++
        consistencyConstraints vectors_length new_vector
      let step1 := non_negative_real_estimation s1 (jointVector cs) i constraints
      match rounding_estimation s2 step1.1 i constraints with
      | Except.error e => Except.error e
      | Except.ok (none, _) => Except.error PyError.subscriptOfNone
      | Except.ok (some joint_solution, _) =>
        match recEstList s1 s2 vectors_length cs (splitJoint vectors_length cs.length joint_solution) with
        | Except.error e => Except.error e
        | Except.ok cs2 => Except.ok (.mk i g cs2 new_vector k)
  termination_by structural t _ => t
/-- Estimation of a list of children against their assigned slices. -/
def recEstList (s1 : Stage1Solver) (s2 : Stage2Solver) (vectors_length : Nat) :
    List GNode → List Vec → Except PyError (List GNode)
  | [], _ => Except.ok []
  | _ :: _, [] => Except.ok []
  | n :: ns, ch :: chs =>
    match recursive_estimation s1 s2 vectors_length n ch with
    | Except.error e => Except.error e
    | Except.ok n2 =>
      match recEstList s1 s2 vectors_length ns chs with
      | Except.error e => Except.error e
      | Except.ok ns2 => Except.ok (n2 :: ns2)
  termination_by structural l _ => l
end

mutual
/-- TopDown.check_correctness_node: for a node with children, compare the
total of the node's vector with the combined total of the children's
vectors; on a mismatch print the error (recorded here as the node's id) and
return without descending, otherwise recurse into each child.  Leaves
produce nothing. -/
def check_correctness_node : GNode → List Val
  | .mk i _ cs v _ =>
    if cs.isEmpty then []
    else
      if v.sum ≠ (cs.map (fun c => c.contingency_vector.sum)).sum then [i]
      else checkCorrectnessList cs
  termination_by structural t => t
/-- Checker recursion over a list of children. -/
def checkCorrectnessList : List GNode → List Val
  | [] => []
  | n :: ns => check_correctness_node n ++ checkCorrectnessList ns
  termination_by structural l => l
end

/-- Emitted microdata record: the geographic label map of the leaf paired
with the query-value tuple of the permutation cell.  The source builds a
column dictionary; read row-wise it is exactly this list of rows, since
every query column is extended by the same repeat count at each
permutation index and the geographic columns are filled with the leaf's
label repeated to the common column length. -/
abbrev MicroRec := List (String × Val) × Tuple

/-- Repeat count used by np.repeat on a cell of a post-estimation vector:
the integral value of the cell (the vectors reaching microdata
construction hold nonnegative integers). -/
def repCount (q : ℚ) : Nat :=
  (⌊q⌋ : Int).toNat

mutual
/-- TopDown.recursive_construct_microdata: at a leaf, emit for each
permutation index the cell's count of rows carrying that query tuple and
the leaf's geographic labels; at an inner node, concatenate the children's
microdata columnwise, which row-wise is list concatenation. -/
def recursive_construct_microdata (permutation : List Tuple) : GNode → List MicroRec
  | .mk _ g cs v _ =>
    if cs.isEmpty then
      (permutation.zip v).flatMap
        (fun p => List.replicate (repCount p.2) (g, p.1))
    else microdataList permutation cs
  termination_by structural t => t
/-- Microdata of a list of sibling subtrees, concatenated in order. -/
def microdataList (permutation : List Tuple) : List GNode → List MicroRec
  | [] => []
  | n :: ns => recursive_construct_microdata permutation n ++ microdataList permutation ns
  termination_by structural l => l
end

/-- TopDown.compare_vectors, the metric dispatch only: the four known
metric names select a distance function (whose numeric output is not
needed by any claim), anything else raises the ValueError of the match
statement's fallback arm. -/
def compare_vectors (distance_metric : String) : Except PyError String :=
  if distance_metric = "manhattan" then Except.ok "manhattan"
  else if distance_metric = "euclidean" then Except.ok "euclidean"
  else if distance_metric = "tvd" then Except.ok "tvd"
  else if distance_metric = "cosine" then Except.ok "cosine"
  else Except.error PyError.valueError

/-- Tree produced by TopDown.init_routine: the root node with id 0, empty
labels, the root contingency vector over the full frame, children built by
construct_tree from level 0, and the root constraints materialized over the
full frame's row count. -/
def init_tree (data : List Rec) (df_columns : List String) (geo_columns : List String)
    (queries : List String) (constraints_dict : List (String × List Tmpl))
    (root_constraints : List Tmpl) : GNode :=
  let permutation := compute_permutation data queries
  GNode.mk 0 []
    (construct_tree 0 data df_columns permutation geo_columns queries constraints_dict)
    (construct_contingency_vector data permutation queries)
    (materializeConstraints root_constraints data.length)

/-- Prefix of TopDown.run relevant to configuration-error handling: the
init routine (permutation, tree construction, root constraints — none of
which consults the mechanism) followed by the measurement phase, which
invokes the configured noise mechanism on every node.  The first component
is the tree as built by the init routine; the second is the outcome of the
measurement phase on it: calling the never-bound None mechanism is the
TypeError the source raises at the first node, and a known mechanism runs
apply_noise.  The subsequent estimation and microdata phases are reached
only when measurement succeeds and are irrelevant to the claim settled on
this definition. -/
def run_init_and_measurement (mechanism : String) (fam : SampleFamily)
    (privacy_parameters : List ℚ) (data : List Rec) (df_columns : List String)
    (geo_columns : List String) (queries : List String)
    (constraints_dict : List (String × List Tmpl)) (root_constraints : List Tmpl) :
    GNode × Except PyError GNode :=
  let tree := init_tree data df_columns geo_columns queries constraints_dict root_constraints
  (tree,
    match set_mechanism mechanism with
    | none => Except.error PyError.callOfNone
    | some m => GNode.apply_noise (mechanismFun m fam) privacy_parameters 0 tree)

/-- Parameters of GeographicTree.extend_tree besides self: raw_data,
permutation, geo_columns, constraints_dict. -/
def geographic_extend_tree_param_count : Nat := 4

/-- Positional arguments TopDown.extend_tree passes to
GeographicTree.extend_tree besides the receiver: self.data,
self.permutation, self.geo_columns, self.queries_columns,
self.geo_constraints. -/
def topdown_extend_tree_arg_count : Nat := 5

/-- A Python call with the wrong number of positional arguments raises
TypeError before the callee body runs. -/
def pyCallCheck (param_count arg_count : Nat) : Except PyError Unit :=
  if arg_count = param_count then Except.ok () else Except.error PyError.arityMismatch

/-- The extend-tree step of TopDown.resume_run: the call of
GeographicTree.extend_tree from TopDown.extend_tree, as the argument-count
check Python performs at that call. -/
def resume_extend_step : Except PyError Unit :=
  pyCallCheck geographic_extend_tree_param_count topdown_extend_tree_arg_count

/-- Cellwise sum of the children's vectors of a node at one cell index. -/
def childSumAt (n : GNode) (j : Nat) : ℚ :=
  (n.children.map (fun c => c.contingency_vector.getD j 0)).sum

/-- The vector value an estimation call assigns, when it returns at all:
some (some v) for a solved vector, some none for the None of an infeasible
Stage 2, none when a Python exception escaped. -/
def assignedVector (r : Except PyError (Option Vec × List Diag)) : Option (Option Vec) :=
  match r with
  | Except.ok p => some p.1
  | Except.error _ => none

/-- Check that every cell of a vector is an integer rational. -/
def intVec (v : Vec) : Bool :=
  v.all (fun q => q.den == 1)

/-- Dimension guarantee of the external Stage-1 solver: a returned optimum
has the dimension of the decision vector, which the model sets to the
length of the target vector. -/
def Stage1Dim (s1 : Stage1Solver) : Prop :=
  ∀ v cs x, s1 v cs = some x → x.length = v.length

/-- Soundness guarantee of the external Stage-2 solver: a returned optimum
has the dimension of the decision vector and satisfies every constraint the
model was given (each constraint is posted on x_floor + y). -/
def Stage2Sound (s2 : Stage2Solver) : Prop :=
  ∀ x_floor residual cs y, s2 x_floor residual cs = some y →
    y.length = x_floor.length ∧ ∀ c ∈ cs, c (addVec x_floor y) = true

/-- Stage-1 solver returning the target itself (feasible whenever the noisy
vector happens to satisfy the constraints; used to instantiate theorems). -/
def idStage1 : Stage1Solver :=
  fun v _ => some v

/-- Stage-2 solver proposing a fixed vector and verifying the model
constraints before returning it, so that it is sound by construction. -/
def cannedStage2 (y : Vec) : Stage2Solver :=
  fun x_floor _ cs =>
    if y.length == x_floor.length && cs.all (fun c => c (addVec x_floor y)) then some y else none

/-- Stage-1 solver reporting every model infeasible. -/
def noSolution1 : Stage1Solver :=
  fun _ _ => none

/-- Stage-2 solver reporting every model infeasible. -/
def noSolution2 : Stage2Solver :=
  fun _ _ _ => none

/-- Default node used with getD and headD. -/
def emptyGNode : GNode :=
  GNode.mk 0 [] [] [] []

/-- Root-constraint template of main.py: the vector sums to the total
population. -/
def c2tmpl0 : Tmpl :=
  fun contingency_vector total_population => decide (contingency_vector.sum = (total_population : ℚ))

/-- A second, distinguishable template: the first cell equals 5 (the
Scenario-3 edit constraint of the specification). -/
def c2tmpl1 : Tmpl :=
  fun contingency_vector _ => decide (contingency_vector.getD 0 0 = 5)

/-- Two-record frame over one geographic column R and one query column S. -/
def c2data : List Rec :=
  [[("R", 1), ("S", 0)], [("R", 1), ("S", 1)]]

/-- Constraint dictionary giving column R the two distinct templates. -/
def c2dict : List (String × List Tmpl) :=
  [("R", [c2tmpl0, c2tmpl1])]

/-- Permutation frame of the S column of c2data. -/
def c2perm : List Tuple :=
  [[0], [1]]

/-- First stored constraint of the first node construct_tree builds from
c2data under c2dict. -/
def c2builtConstraint : NodeCons :=
  ((construct_tree 0 c2data ["R", "S"] c2perm ["R"] ["S"] c2dict).headD emptyGNode).constraints.getD 0
    (fun _ => true)

/-- Scenario-3 root: two records, root constraints demanding both a total of
2 and a first cell of 5 (as materialized by the source). -/
def c3Root : GNode :=
  GNode.mk 0 [] [] [2, 0, 0, 0] (materializeConstraints [c2tmpl0, c2tmpl1] 2)

/-- A fractional Stage-1 solution for the rounding stage. -/
def c4xt : Vec :=
  [3 / 2, 1 / 2]

/-- Two-leaf parent for the estimation witness: noisy children vectors of
width 1 under a parent fixed at 2. -/
def c1Node : GNode :=
  GNode.mk 0 [] [GNode.mk 1 [] [] [3] [], GNode.mk 2 [] [] [4] []] [5] []

/-- Stage-2 solver used in the estimation witness. -/
def c1Solver2 : Stage2Solver :=
  cannedStage2 [-1, -4]

/-- Tree the estimation witness produces: children reassigned to [2] and
[0], consistent with the parent's fixed [2]. -/
def c1Expected : GNode :=
  GNode.mk 0 [] [GNode.mk 1 [] [] [2] [], GNode.mk 2 [] [] [0] []] [2] []

/-- Four-record frame over query columns S and A for the histogram
witness. -/
def c5data : List Rec :=
  [[("S", 0), ("A", 0)], [("S", 0), ("A", 1)], [("S", 1), ("A", 0)]]

/-- Subset of c5data. -/
def c5subset : List Rec :=
  [[("S", 0), ("A", 0)], [("S", 1), ("A", 0)]]

/-- Two labelled leaves and their parent for the microdata witness. -/
def c6Tree : GNode :=
  GNode.mk 0 [] [GNode.mk 1 [("R", 1)] [] [2, 1] [], GNode.mk 2 [("R", 2)] [] [0, 3] []] [2, 4] []

/-- Tree with a cellwise mismatch that cancels in the totals: the parent
holds [1, 1], its only child [2, 0]. -/
def c8Tree : GNode :=
  GNode.mk 0 [] [GNode.mk 1 [("R", 1)] [] [2, 0] []] [1, 1] []

/-- Tree whose root totals mismatch its child's. -/
def c8BadTotals : GNode :=
  GNode.mk 0 [] [GNode.mk 1 [] [] [1] []] [3] []

/-- Sample family used by the configuration and measurement witnesses. -/
def c9fam : SampleFamily :=
  fun _ n => (n : Int)

/-- Constraint dictionary with no templates for R. -/
def c10dict : List (String × List Tmpl) :=
  [("R", [])]

/-- Tree built by the init routine on c2data with no edit constraints. -/
def c10Tree : GNode :=
  init_tree c2data ["R", "S"] ["R"] ["S"] c10dict []

/-- Zero-valued sample family used by the measurement witness. -/
def c10fam : SampleFamily :=
  fun _ _ => 0

/-- Measurement outcome expected on c10Tree under c10fam with budgets
[1, 2]. -/
def c10Expected : GNode :=
  GNode.mk 0 [] [GNode.mk 1 [("R", 1)] [] [1, 1] []] [1, 1] []

/-- Rows a single leaf contributes to the microdata: for each permutation
row, the cell's count of copies of (leaf labels, query tuple).  This is the
leaf arm of recursive_construct_microdata, read off a node. -/
def leafEmission (permutation : List Tuple) (n : GNode) : List MicroRec :=
  (permutation.zip n.contingency_vector).flatMap
    (fun p => List.replicate (repCount p.2) (n.geographic_values, p.1))

/-! Helper lemmas. -/

/-- An element read with getD below the length is a member of the list. -/
theorem getD_mem_of_lt {α : Type} (l : List α) (j : Nat) (d : α) (h : j < l.length) :
    l.getD j d ∈ l := by
  rw [List.getD_eq_getElem?_getD, List.getElem?_eq_getElem h]
  exact List.getElem_mem h

/-- Sums of pointwise sums split, over any commutative monoid. -/
theorem sum_map_add {α : Type} {M : Type} [AddCommMonoid M] (l : List α) (f g : α → M) :
    (l.map (fun x => f x + g x)).sum = (l.map f).sum + (l.map g).sum := by
  induction l with
  | nil => simp
  | cons a t ih =>
    simp only [List.map_cons, List.sum_cons, ih]
    rw [add_add_add_comm]

/-- On a duplicate-free list containing a, the indicator of a sums to 1. -/
theorem sum_map_indicator {α : Type} [DecidableEq α] (l : List α) (a : α)
    (hmem : a ∈ l) (hnd : l.Nodup) :
    (l.map (fun c => if a = c then (1 : ℕ) else 0)).sum = 1 := by
  induction l with
  | nil => cases hmem
  | cons b t ih =>
    rcases List.mem_cons.mp hmem with hb | ht
    · subst hb
      have hnotin : a ∉ t := (List.nodup_cons.mp hnd).1
      have : (t.map (fun c => if a = c then (1 : ℕ) else 0)).sum = 0 := by
        rw [List.sum_eq_zero]
        intro x hx
        rcases List.mem_map.mp hx with ⟨c, hc, hcx⟩
        have : a ≠ c := fun h => hnotin (h ▸ hc)
        simp [this] at hcx
        omega
      simp [this]
    · have hne : a ≠ b := by
        intro h
        exact (List.nodup_cons.mp hnd).1 (h ▸ ht)
      simp [hne, ih ht (List.nodup_cons.mp hnd).2]

/-- Counting a frame against a duplicate-free list of cells covering every
record partitions the frame: the counts sum to the frame's size. -/
theorem sum_countP_partition {α β : Type} [DecidableEq β] (perm : List β) (l : List α)
    (f : α → β) (hcov : ∀ r ∈ l, f r ∈ perm) (hnd : perm.Nodup) :
    (perm.map (fun cell => l.countP (fun r => decide (f r = cell)))).sum = l.length := by
  induction l with
  | nil => simp [List.countP_nil, List.sum_eq_zero]
  | cons r t ih =>
    have hcovt : ∀ x ∈ t, f x ∈ perm := fun x hx => hcov x (List.mem_cons_of_mem r hx)
    have step : ∀ cell, (r :: t).countP (fun x => decide (f x = cell)) =
        t.countP (fun x => decide (f x = cell)) + (if f r = cell then 1 else 0) := by
      intro cell
      by_cases h : f r = cell
      · rw [List.countP_cons_of_pos _ _ (by simpa using h)]
        simp [h]
      · rw [List.countP_cons_of_neg _ _ (by simpa using h)]
        simp [h]
    calc (perm.map (fun cell => (r :: t).countP (fun x => decide (f x = cell)))).sum
        = (perm.map (fun cell => t.countP (fun x => decide (f x = cell)) + (if f r = cell then 1 else 0))).sum := by
          exact congrArg List.sum (List.map_congr_left (fun cell _ => step cell))
      _ = (perm.map (fun cell => t.countP (fun x => decide (f x = cell)))).sum +
          (perm.map (fun cell => if f r = cell then (1:ℕ) else 0)).sum := sum_map_add ..
      _ = t.length + 1 := by
          rw [ih hcovt, sum_map_indicator perm (f r) (hcov r (List.mem_cons_self r t)) hnd]
      _ = (r :: t).length := by simp

/-- Membership in the unique-values accumulator: exactly the input values
not already seen. -/
theorem pdUniqueAux_mem (l : List Val) (seen : List Val) (x : Val) :
    x ∈ pdUniqueAux l seen ↔ x ∈ l ∧ x ∉ seen := by
  induction l generalizing seen with
  | nil => simp [pdUniqueAux]
  | cons a t ih =>
    by_cases h : a ∈ seen
    · rw [pdUniqueAux, if_pos h, ih]
      constructor
      · rintro ⟨hx, hs⟩
        exact ⟨List.mem_cons_of_mem a hx, hs⟩
      · rintro ⟨hx, hs⟩
        rcases List.mem_cons.mp hx with rfl | hx
        · exact absurd h hs
        · exact ⟨hx, hs⟩
    · rw [pdUniqueAux, if_neg h]
      constructor
      · intro hx
        rcases List.mem_cons.mp hx with rfl | hx
        · exact ⟨List.mem_cons_self _ _, h⟩
        · rcases (ih (a :: seen)).mp hx with ⟨hx1, hx2⟩
          exact ⟨List.mem_cons_of_mem a hx1,
            fun hs => hx2 (List.mem_cons_of_mem a hs)⟩
      · rintro ⟨hx, hs⟩
        rcases List.mem_cons.mp hx with rfl | hx
        · exact List.mem_cons_self x _
        · by_cases hxa : x = a
          · subst hxa
            exact List.mem_cons_self x _
          · exact List.mem_cons_of_mem a ((ih (a :: seen)).mpr
              ⟨hx, fun hmem => (List.mem_cons.mp hmem).elim hxa hs⟩)

/-- Membership in pandas unique is membership in the series. -/
theorem pdUnique_mem (l : List Val) (x : Val) : x ∈ pdUnique l ↔ x ∈ l := by
  rw [pdUnique, pdUniqueAux_mem]
  simp

/-- The unique-values accumulator has no duplicates. -/
theorem pdUniqueAux_nodup (l : List Val) (seen : List Val) : (pdUniqueAux l seen).Nodup := by
  induction l generalizing seen with
  | nil => simp [pdUniqueAux]
  | cons a t ih =>
    by_cases h : a ∈ seen
    · rw [pdUniqueAux, if_pos h]
      exact ih seen
    · rw [pdUniqueAux, if_neg h]
      refine List.nodup_cons.mpr ⟨?_, ih (a :: seen)⟩
      intro hmem
      exact ((pdUniqueAux_mem t (a :: seen) a).mp hmem).2 (List.mem_cons_self a seen)

/-- pandas unique has no duplicates. -/
theorem pdUnique_nodup (l : List Val) : (pdUnique l).Nodup :=
  pdUniqueAux_nodup l []

/-- Membership in the Cartesian product: a tuple picking one member from
each list. -/
theorem pyProduct_mem (ls : List (List Val)) (t : Tuple) :
    t ∈ pyProduct ls ↔ List.Forall₂ (fun x l => x ∈ l) t ls := by
  induction ls generalizing t with
  | nil =>
    constructor
    · intro h
      rcases List.mem_singleton.mp h with rfl
      exact List.Forall₂.nil
    · intro h
      cases h
      exact List.mem_singleton.mpr rfl
  | cons l ls ih =>
    constructor
    · intro h
      rw [pyProduct] at h
      rcases List.mem_flatten.mp h with ⟨inner, hinner, hmem⟩
      rcases List.mem_map.mp hinner with ⟨x, hx, rfl⟩
      rcases List.mem_map.mp hmem with ⟨rest, hrest, rfl⟩
      exact List.Forall₂.cons hx ((ih rest).mp hrest)
    · intro h
      cases h with
      | cons hx hrest =>
        rename_i x rest
        rw [pyProduct]
        exact List.mem_flatten.mpr ⟨(pyProduct ls).map (fun u => x :: u),
          List.mem_map.mpr ⟨x, hx, rfl⟩, List.mem_map.mpr ⟨rest, (ih rest).mpr hrest, rfl⟩⟩

/-- The Cartesian product of duplicate-free lists is duplicate-free. -/
theorem pyProduct_nodup (ls : List (List Val)) (h : ∀ l ∈ ls, l.Nodup) :
    (pyProduct ls).Nodup := by
  induction ls with
  | nil => simp [pyProduct]
  | cons l ls ih =>
    rw [pyProduct, List.nodup_flatten]
    constructor
    · intro inner hinner
      rcases List.mem_map.mp hinner with ⟨x, _, rfl⟩
      exact (ih (fun m hm => h m (List.mem_cons_of_mem l hm))).map List.cons_injective
    · rw [List.pairwise_map]
      have hl : l.Nodup := h l (List.mem_cons_self l ls)
      refine hl.imp ?_
      intro a b hab
      intro t ht1 ht2
      rcases List.mem_map.mp ht1 with ⟨u1, _, rfl⟩
      rcases List.mem_map.mp ht2 with ⟨u2, _, h2⟩
      exact hab (List.cons.injEq .. |>.mp h2).1.symm

/-- Insertion preserves the multiset of rows. -/
theorem insertLex_perm (x : Tuple) (l : List Tuple) : (insertLex x l).Perm (x :: l) := by
  induction l with
  | nil => exact List.Perm.refl _
  | cons y ys ih =>
    rw [insertLex]
    by_cases h : lexLe x y
    · rw [if_pos h]
    · rw [if_neg h]
      exact (List.Perm.cons y ih).trans (List.Perm.swap x y ys)

/-- Sorting permutes the rows of the permutation frame. -/
theorem lexSort_perm (l : List Tuple) : (lexSort l).Perm l := by
  induction l with
  | nil => exact List.Perm.refl _
  | cons x xs ih =>
    exact (insertLex_perm x (lexSort xs)).trans (List.Perm.cons x ih)

/-- The canonical permutation covers the query projection of every record
of the frame it was computed from. -/
theorem compute_permutation_covers (data : List Rec) (queries : List String)
    (r : Rec) (hr : r ∈ data) :
    projQ queries r ∈ compute_permutation data queries := by
  rw [compute_permutation]
  refine (lexSort_perm _).mem_iff.mpr ?_
  rw [pyProduct_mem]
  unfold projQ
  rw [List.forall₂_map_left_iff, List.forall₂_map_right_iff]
  refine List.forall₂_same.mpr ?_
  intro c _
  exact (pdUnique_mem _ _).mpr (List.mem_map.mpr ⟨r, hr, rfl⟩)

/-- The canonical permutation has no duplicate rows. -/
theorem compute_permutation_nodup (data : List Rec) (queries : List String) :
    (compute_permutation data queries).Nodup := by
  rw [compute_permutation]
  refine (lexSort_perm _).nodup_iff.mpr ?_
  refine pyProduct_nodup _ ?_
  intro l hl
  rcases List.mem_map.mp hl with ⟨c, _, rfl⟩
  exact pdUnique_nodup _

/-- Sum of natural casts is the cast of the sum. -/
theorem castSumMap {β : Type} (l : List β) (f : β → ℕ) :
    (l.map (fun b => ((f b : ℕ) : ℚ))).sum = (((l.map f).sum : ℕ) : ℚ) := by
  induction l with
  | nil => simp
  | cons a t ih => simp [ih]

/-- C5: for every finite record subset of the frame the permutation was
computed from, the histogram is a dense vector of the permutation's length
whose entry at an index is the count of subset records projecting onto the
permutation row at that index, every entry is a nonnegative integer, and
the entries sum to the subset's size. -/
theorem c5_histogram_correct (data subset : List Rec) (queries : List String)
    (hsub : ∀ r ∈ subset, r ∈ data) :
    (construct_contingency_vector subset (compute_permutation data queries) queries).length
        = (compute_permutation data queries).length ∧
    (∀ j : Nat, (construct_contingency_vector subset (compute_permutation data queries) queries)[j]?
        = ((compute_permutation data queries)[j]?).map
            (fun cell => ((subset.countP (fun r => projQ queries r = cell) : ℕ) : ℚ))) ∧
    (∀ x ∈ construct_contingency_vector subset (compute_permutation data queries) queries,
        0 ≤ x ∧ x.den = 1) ∧
    (construct_contingency_vector subset (compute_permutation data queries) queries).sum
        = (subset.length : ℚ) := by
  refine ⟨?_, ?_, ?_, ?_⟩
  · rw [construct_contingency_vector, List.length_map]
  · intro j
    rw [construct_contingency_vector, List.getElem?_map]
  · intro x hx
    rcases List.mem_map.mp hx with ⟨cell, _, rfl⟩
    exact ⟨by positivity, Rat.den_natCast _⟩
  · rw [construct_contingency_vector, castSumMap]
    rw [sum_countP_partition (compute_permutation data queries) subset (projQ queries)
      (fun r hr => compute_permutation_covers data queries r (hsub r hr))
      (compute_permutation_nodup data queries)]

/-- Witness for C5: on the concrete frame, the histogram of the two-record
subset sums to 2. -/
theorem c5_witness :
    (construct_contingency_vector c5subset (compute_permutation c5data ["S", "A"]) ["S", "A"]).sum
      = (c5subset.length : ℚ) :=
  (c5_histogram_correct c5data c5subset ["S", "A"] (by decide)).2.2.2

/-- C7: the resume path cannot run: TopDown.extend_tree calls
GeographicTree.extend_tree with five positional arguments while its
definition accepts four, so every resume run raises TypeError at the
extend-tree step, before any rebuilding, measurement or estimation of new
levels happens. -/
theorem c7_resume_extend_crashes :
    resume_extend_step = Except.error PyError.arityMismatch ∧
    topdown_extend_tree_arg_count ≠ geographic_extend_tree_param_count := by
  constructor
  · rfl
  · intro h
    simp [topdown_extend_tree_arg_count, geographic_extend_tree_param_count] at h

/-- Evaluation of c2tmpl0 on the built node's data: the first template,
closed over the build-time count 2, accepts the node's vector. -/
theorem c2tmpl0_eval : c2tmpl0 [1, 1] 2 = true := by
  rw [c2tmpl0]
  norm_num [List.sum_cons]

/-- C2: the late-binding bug.  On a two-template list, the node built by
construct_tree stores as its first constraint a closure that evaluates the
last template, not the first: the stored constraint rejects the vector
[1, 1] that the first template (sum equals the captured count 2) accepts. -/
theorem c2_late_binding_materialization :
    c2builtConstraint [1, 1] = false ∧ c2tmpl0 [1, 1] 2 = true ∧
    (∀ array t, (materializeConstraints [c2tmpl0, c2tmpl1] t).getD 0 (fun _ => true) array
        = c2tmpl1 array t) := by
  refine ⟨rfl, c2tmpl0_eval, ?_⟩
  intro array t
  rfl

/-- C3: when Stage 1 is infeasible, the optimizer prints the diagnostic
naming the node and writes the model, and then the run aborts with the
TypeError raised by taking len of the None result inside
rounding_estimation: at the root the exception escapes root_estimation, and
at a joint pass recursive_estimation likewise propagates it.  No vector is
assigned on either path. -/
theorem c3_stage1_infeasible_aborts :
    (∀ (s1 : Stage1Solver) (s2 : Stage2Solver) (root : GNode),
      s1 root.contingency_vector root.constraints = none →
      root_estimation s1 s2 root =
        ([Diag.infeasibleMsg root.id, Diag.modelWrite], Except.error PyError.lenOfNone)) ∧
    (∀ (s1 : Stage1Solver) (s2 : Stage2Solver) (w : Nat) (i : Val) (g : List (String × Val))
        (cs : List GNode) (v : Vec) (k : List NodeCons) (nv : Vec),
      cs.isEmpty = false →
      s1 (jointVector cs) (liftedConstraints w cs ++ consistencyConstraints w nv) = none →
      recursive_estimation s1 s2 w (GNode.mk i g cs v k) nv = Except.error PyError.lenOfNone) := by
  constructor
  · intro s1 s2 root h
    rw [root_estimation, non_negative_real_estimation, h]
    rfl
  · intro s1 s2 w i g cs v k nv hcs h
    rw [recursive_estimation, if_neg (by rw [hcs]; exact Bool.false_ne_true)]
    simp only [non_negative_real_estimation, h]
    rfl

/-- Witness for C3: a root whose Stage-1 model the solver reports
infeasible produces the diagnostic pair and the len-of-None TypeError, and
the same solver aborts a joint pass. -/
theorem c3_witness :
    root_estimation noSolution1 noSolution2 c3Root =
      ([Diag.infeasibleMsg 0, Diag.modelWrite], Except.error PyError.lenOfNone) ∧
    recursive_estimation noSolution1 noSolution2 1 c1Node [2] = Except.error PyError.lenOfNone :=
  ⟨c3_stage1_infeasible_aborts.1 noSolution1 noSolution2 c3Root rfl,
   c3_stage1_infeasible_aborts.2 noSolution1 noSolution2 1 0 []
     [GNode.mk 1 [] [] [3] [], GNode.mk 2 [] [] [4] []] [5] [] [2] rfl rfl⟩

/-- C4 counterexample: with Stage 2 infeasible on the fractional Stage-1
solution [3/2, 1/2], the rounding estimation returns the None sentinel (to
be assigned as the node's vector), not the floor vector: the claimed
fallback to the floor does not happen. -/
theorem c4_counterexample :
    assignedVector (rounding_estimation noSolution2 (some c4xt) 7 []) = some none ∧
    some (none : Option Vec) ≠ some (some (floorVec c4xt)) := by
  constructor
  · rfl
  · intro h
    simp at h

/-- C4 amended: an infeasible Stage 2 yields the None sentinel, never the
floor vector: rounding_estimation prints the diagnostic, writes the model
and returns None; root_estimation then assigns that None as the root's
vector; and in a joint pass recursive_estimation raises TypeError when the
None solution is sliced for the children. -/
theorem c4_amended_none_not_floor :
    (∀ (s2 : Stage2Solver) (xt : Vec) (id_node : Val) (cs : List NodeCons),
      s2 (floorVec xt) (subVec xt (floorVec xt)) cs = none →
      rounding_estimation s2 (some xt) id_node cs =
        Except.ok (none, [Diag.infeasibleMsg id_node, Diag.modelWrite])) ∧
    (∀ (s1 : Stage1Solver) (s2 : Stage2Solver) (root : GNode) (xt : Vec),
      s1 root.contingency_vector root.constraints = some xt →
      s2 (floorVec xt) (subVec xt (floorVec xt)) root.constraints = none →
      root_estimation s1 s2 root =
        ([Diag.infeasibleMsg root.id, Diag.modelWrite], Except.ok none)) ∧
    (∀ (s1 : Stage1Solver) (s2 : Stage2Solver) (w : Nat) (i : Val) (g : List (String × Val))
        (cs : List GNode) (v : Vec) (k : List NodeCons) (nv : Vec) (xt : Vec),
      cs.isEmpty = false →
      s1 (jointVector cs) (liftedConstraints w cs ++ consistencyConstraints w nv) = some xt →
      s2 (floorVec xt) (subVec xt (floorVec xt))
          (liftedConstraints w cs ++ consistencyConstraints w nv) = none →
      recursive_estimation s1 s2 w (GNode.mk i g cs v k) nv =
        Except.error PyError.subscriptOfNone) := by
  refine ⟨?_, ?_, ?_⟩
  · intro s2 xt id_node cs h
    simp only [rounding_estimation, h]
  · intro s1 s2 root xt h1 h2
    rw [root_estimation]
    simp only [non_negative_real_estimation, h1, rounding_estimation, h2]
    rfl
  · intro s1 s2 w i g cs v k nv xt hcs h1 h2
    rw [recursive_estimation, if_neg (by rw [hcs]; exact Bool.false_ne_true)]
    simp only [non_negative_real_estimation, h1, rounding_estimation, h2]

/-- Witness for C4: with the external solver declaring Stage 2 infeasible,
the rounding step returns None with the diagnostics, the root assignment
receives None, and the joint pass aborts on slicing None. -/
theorem c4_witness :
    rounding_estimation noSolution2 (some c4xt) 7 [] =
      Except.ok (none, [Diag.infeasibleMsg 7, Diag.modelWrite]) ∧
    root_estimation idStage1 noSolution2 c3Root =
      ([Diag.infeasibleMsg 0, Diag.modelWrite], Except.ok none) ∧
    recursive_estimation idStage1 noSolution2 1 c1Node [2] =
      Except.error PyError.subscriptOfNone :=
  ⟨c4_amended_none_not_floor.1 noSolution2 c4xt 7 [] rfl,
   c4_amended_none_not_floor.2.1 idStage1 noSolution2 c3Root c3Root.contingency_vector rfl rfl,
   c4_amended_none_not_floor.2.2 idStage1 noSolution2 1 0 []
     [GNode.mk 1 [] [] [3] [], GNode.mk 2 [] [] [4] []] [5] [] [2]
     (jointVector [GNode.mk 1 [] [] [3] [], GNode.mk 2 [] [] [4] []]) rfl rfl rfl⟩

/-- C9 counterexample: with the unknown mechanism name foo, initialization
completes, the full tree is built (the root has children), and the run
fails only in the measurement phase with the TypeError of calling the
never-bound None mechanism — not fatally at initialization before the tree
is built. -/
theorem c9_counterexample :
    set_mechanism "foo" = none ∧
    (run_init_and_measurement "foo" c9fam [1] c2data ["R", "S"] ["R"] ["S"]
        c2dict []).1.children.isEmpty = false ∧
    (run_init_and_measurement "foo" c9fam [1] c2data ["R", "S"] ["R"] ["S"]
        c2dict []).2 = Except.error PyError.callOfNone :=
  ⟨rfl, rfl, rfl⟩

/-- C9 amended: none of the three options is validated at initialization.
An unknown mechanism leaves the mechanism attribute unset, the init routine
still builds the full tree, and the run fails in the measurement phase when
the unset mechanism is called; an unknown distance metric raises ValueError
only when compare_vectors is invoked; privacy parameters of any length are
stored without validation. -/
theorem c9_amended_no_init_validation :
    (∀ mechanism : String, mechanism ≠ "discrete_gaussian" → mechanism ≠ "discrete_laplace" →
      set_mechanism mechanism = none) ∧
    (∀ (mechanism : String) (fam : SampleFamily) (privacy_parameters : List ℚ) (data : List Rec)
        (df_columns geo_columns queries : List String) (cdict : List (String × List Tmpl))
        (root_cs : List Tmpl),
      set_mechanism mechanism = none →
      run_init_and_measurement mechanism fam privacy_parameters data df_columns geo_columns
          queries cdict root_cs
        = (init_tree data df_columns geo_columns queries cdict root_cs,
           Except.error PyError.callOfNone)) ∧
    (∀ metric : String, metric ≠ "manhattan" → metric ≠ "euclidean" → metric ≠ "tvd" →
      metric ≠ "cosine" → compare_vectors metric = Except.error PyError.valueError) ∧
    (∀ l : List ℚ, set_privacy_parameters l = l) := by
  refine ⟨?_, ?_, ?_, fun l => rfl⟩
  · intro m h1 h2
    rw [set_mechanism, if_neg h1, if_neg h2]
  · intro m fam pp data dfc gc q cd rc h
    simp only [run_init_and_measurement, h]
  · intro m h1 h2 h3 h4
    rw [compare_vectors, if_neg h1, if_neg h2, if_neg h3, if_neg h4]

/-- Witness for C9: the unknown names foo and weird are rejected nowhere at
initialization; the run on the concrete frame builds the tree and fails in
measurement, and a three-element budget list is stored as given. -/
theorem c9_witness :
    set_mechanism "foo" = none ∧
    run_init_and_measurement "foo" c9fam [1] c2data ["R", "S"] ["R"] ["S"] c2dict []
      = (init_tree c2data ["R", "S"] ["R"] ["S"] c2dict [], Except.error PyError.callOfNone) ∧
    compare_vectors "weird" = Except.error PyError.valueError ∧
    set_privacy_parameters [1, 2, 3] = [1, 2, 3] :=
  ⟨c9_amended_no_init_validation.1 "foo" (by decide) (by decide),
   c9_amended_no_init_validation.2.1 "foo" c9fam [1] c2data ["R", "S"] ["R"] ["S"] c2dict [] rfl,
   c9_amended_no_init_validation.2.2.1 "weird" (by decide) (by decide) (by decide) (by decide),
   c9_amended_no_init_validation.2.2.2 [1, 2, 3]⟩

/-- Unfolding of the node list of a constructed node. -/
theorem GNode.nodes_mk (i : Val) (g : List (String × Val)) (cs : List GNode) (v : Vec)
    (k : List NodeCons) :
    (GNode.mk i g cs v k).nodes = GNode.mk i g cs v k :: gnodesList cs := rfl

/-- Every node lists itself among its subtree's nodes. -/
theorem self_mem_nodes (t : GNode) : t ∈ t.nodes := by
  cases t
  rw [GNode.nodes_mk]
  exact List.mem_cons_self _ _

/-- A node of a member subtree is a node of the subtree list. -/
theorem mem_gnodesList_of_mem_nodes (ls : List GNode) (c N : GNode) (hc : c ∈ ls)
    (hN : N ∈ c.nodes) : N ∈ gnodesList ls := by
  induction ls with
  | nil => cases hc
  | cons a t ih =>
    rw [gnodesList]
    rcases List.mem_cons.mp hc with rfl | hc
    · exact List.mem_append_left _ hN
    · exact List.mem_append_right _ (ih hc)

/-- A node of the subtree list is a node of one of its members. -/
theorem mem_nodes_of_mem_gnodesList (ls : List GNode) (N : GNode) (hN : N ∈ gnodesList ls) :
    ∃ c ∈ ls, N ∈ c.nodes := by
  induction ls with
  | nil => cases hN
  | cons a t ih =>
    rw [gnodesList] at hN
    rcases List.mem_append.mp hN with h | h
    · exact ⟨a, List.mem_cons_self a t, h⟩
    · rcases ih h with ⟨c, hc, hcn⟩
      exact ⟨c, List.mem_cons_of_mem a hc, hcn⟩

/-- A nonempty checker recursion names a mismatching child subtree. -/
theorem checkCorrectnessList_ne_nil (ls : List GNode) (h : checkCorrectnessList ls ≠ []) :
    ∃ c ∈ ls, check_correctness_node c ≠ [] := by
  induction ls with
  | nil => exact absurd rfl h
  | cons a t ih =>
    rw [checkCorrectnessList] at h
    by_cases ha : check_correctness_node a = []
    · rw [ha, List.nil_append] at h
      rcases ih h with ⟨c, hc, hcn⟩
      exact ⟨c, List.mem_cons_of_mem a hc, hcn⟩
    · exact ⟨a, List.mem_cons_self a t, ha⟩

/-- C8 counterexample: the parent [1, 1] with single child [2, 0] has a
cellwise mismatch at cell 0, but the totals agree (2 = 2), so the checker
reports nothing. -/
theorem c8_counterexample :
    check_correctness_node c8Tree = [] ∧
    c8Tree.children.isEmpty = false ∧
    childSumAt c8Tree 0 ≠ c8Tree.contingency_vector.getD 0 0 := by
  refine ⟨?_, rfl, ?_⟩
  · rw [c8Tree, check_correctness_node]
    norm_num [GNode.contingency_vector, checkCorrectnessList, check_correctness_node]
  · norm_num [childSumAt, c8Tree, GNode.children, GNode.contingency_vector]

/-- C8 amended: the checker compares only the totals of the vectors, not
the cells.  A non-leaf node whose total differs from its children's
combined total is reported when it is the node inspected (in particular the
root), and conversely every report names a tree that contains a non-leaf
node with mismatching totals; a cellwise mismatch whose totals cancel is
not reported. -/
theorem c8_amended_totals_only :
    (∀ t : GNode, t.children.isEmpty = false →
      t.contingency_vector.sum ≠ (t.children.map (fun c : GNode => c.contingency_vector.sum)).sum →
      check_correctness_node t ≠ []) ∧
    (∀ t : GNode, check_correctness_node t ≠ [] →
      ∃ N, N ∈ t.nodes ∧ N.children.isEmpty = false ∧
        N.contingency_vector.sum ≠
          (N.children.map (fun c : GNode => c.contingency_vector.sum)).sum) := by
  constructor
  · intro t hne hsum
    cases t with
    | mk i g cs v k =>
      rw [check_correctness_node, if_neg (by
        rw [show (GNode.mk i g cs v k).children = cs from rfl] at hne
        rw [hne]
        exact Bool.false_ne_true)]
      rw [if_pos (by
        rw [show (GNode.mk i g cs v k).children = cs from rfl] at hsum
        rw [show (GNode.mk i g cs v k).contingency_vector = v from rfl] at hsum
        exact hsum)]
      exact List.cons_ne_nil i []
  · have main : ∀ (b : Nat) (t : GNode), sizeOf t ≤ b → check_correctness_node t ≠ [] →
        ∃ N, N ∈ t.nodes ∧ N.children.isEmpty = false ∧
          N.contingency_vector.sum ≠
            (N.children.map (fun c : GNode => c.contingency_vector.sum)).sum := by
      intro b
      induction b with
      | zero =>
        intro t hsz
        cases t with
        | mk i g cs v k => simp at hsz
      | succ b ih =>
        intro t hsz hne
        cases t with
        | mk i g cs v k =>
          by_cases h1 : cs.isEmpty
          · rw [check_correctness_node, if_pos h1] at hne
            exact absurd rfl hne
          · rw [check_correctness_node, if_neg h1] at hne
            by_cases h2 : v.sum ≠ (cs.map (fun c : GNode => c.contingency_vector.sum)).sum
            · refine ⟨GNode.mk i g cs v k, self_mem_nodes _, ?_, h2⟩
              rw [show (GNode.mk i g cs v k).children = cs from rfl]
              exact (Bool.not_eq_true _) ▸ h1
            · rw [if_neg h2] at hne
              rcases checkCorrectnessList_ne_nil cs hne with ⟨c, hc, hcn⟩
              have hszc : sizeOf c ≤ b := by
                have h3 : sizeOf c < sizeOf cs := List.sizeOf_lt_of_mem hc
                simp only [GNode.mk.sizeOf_spec] at hsz
                omega
              rcases ih c hszc hcn with ⟨N, hN, hNc, hNs⟩
              refine ⟨N, ?_, hNc, hNs⟩
              rw [GNode.nodes_mk]
              exact List.mem_cons_of_mem _ (mem_gnodesList_of_mem_nodes cs c N hc hN)
    exact fun t => main (sizeOf t) t (Nat.le_refl _)

/-- Total sums of the witness tree differ: 3 against 1. -/
theorem c8BadTotals_sums :
    c8BadTotals.contingency_vector.sum ≠
      (c8BadTotals.children.map (fun c : GNode => c.contingency_vector.sum)).sum := by
  norm_num [c8BadTotals, GNode.children, GNode.contingency_vector]

/-- Witness for C8: the tree whose root total 3 differs from its child's
total 1 is reported by the checker. -/
theorem c8_witness : check_correctness_node c8BadTotals ≠ [] :=
  c8_amended_totals_only.1 c8BadTotals rfl c8BadTotals_sums

/-- Adding an integer to an integer rational gives an integer rational. -/
theorem den_one_add_intCast (q : ℚ) (z : ℤ) (h : q.den = 1) : (q + (z : ℚ)).den = 1 := by
  have h1 : (q.num : ℚ) = q := Rat.coe_int_num_of_den_eq_one h
  rw [← h1, ← Int.cast_add]
  exact Rat.den_intCast _

/-- Both noise mechanisms add one exact integer sample to each cell, so
integer vectors stay integer. -/
theorem intVec_mechanismFun (m : Mech) (fam : SampleFamily) (v : Vec) (rho : ℚ)
    (h : intVec v = true) : intVec (mechanismFun m fam v rho) = true := by
  have key : ∀ (f : ℚ → Nat → Int), intVec (v.enum.map (fun p => p.2 + ((f rho p.1 : Int) : ℚ))) = true := by
    intro f
    rw [intVec, List.all_eq_true]
    intro x hx
    rcases List.mem_map.mp hx with ⟨p, hp, rfl⟩
    have hp2 : p.2 ∈ v := by
      have h2 := List.mem_enum_iff_getElem?.mp hp
      exact List.getElem?_mem h2
    have hden : p.2.den = 1 := by
      have := List.all_eq_true.mp h p.2 hp2
      simpa using this
    simpa using den_one_add_intCast p.2 (f rho p.1) hden
  cases m with
  | discrete_gaussian => exact key fam
  | discrete_laplace => exact key (fun e n => fam (1 / e) n)

/-- Every cell of a histogram is an integer rational. -/
theorem intVec_ccv (df : List Rec) (p : List Tuple) (q : List String) :
    intVec (construct_contingency_vector df p q) = true := by
  rw [intVec, List.all_eq_true, construct_contingency_vector]
  intro x hx
  rcases List.mem_map.mp hx with ⟨cell, _, rfl⟩
  simp [Rat.den_natCast]

/-- Every node construct_tree builds carries an integer vector. -/
theorem construct_tree_fuel_intVec (permutation : List Tuple) (pres : List String)
    (queries : List String) (cdict : List (String × List Tmpl)) :
    ∀ (fuel level : Nat) (df : List Rec),
      ∀ N ∈ gnodesList (construct_tree_fuel permutation pres queries cdict fuel level df),
        intVec N.contingency_vector = true := by
  intro fuel
  induction fuel with
  | zero =>
    intro level df N hN
    cases hN
  | succ fuel ih =>
    intro level df N hN
    rw [construct_tree_fuel] at hN
    rcases mem_nodes_of_mem_gnodesList _ N hN with ⟨c, hc, hcn⟩
    rcases List.mem_map.mp hc with ⟨loc, _, rfl⟩
    rw [GNode.nodes_mk] at hcn
    rcases List.mem_cons.mp hcn with rfl | hdeep
    · exact intVec_ccv ..
    · exact ih (level + 1) _ N hdeep

/-- Inversion of noise application on a sibling list: every output subtree
comes from noising a member of the input list. -/
theorem applyNoiseList_inv (mech : Vec → ℚ → Vec) (rhos : List ℚ) :
    ∀ (lvl : Nat) (ns ns2 : List GNode),
      applyNoiseList mech rhos lvl ns = Except.ok ns2 →
      ∀ c2 ∈ ns2, ∃ c ∈ ns, GNode.apply_noise mech rhos lvl c = Except.ok c2 := by
  intro lvl ns
  induction ns with
  | nil =>
    intro ns2 h c2 hc2
    rw [applyNoiseList] at h
    cases h
    cases hc2
  | cons a t ih =>
    intro ns2 h c2 hc2
    rw [applyNoiseList] at h
    cases ha : GNode.apply_noise mech rhos lvl a with
    | error e => rw [ha] at h; cases h
    | ok a2 =>
      rw [ha] at h
      cases ht : applyNoiseList mech rhos lvl t with
      | error e => rw [ht] at h; cases h
      | ok t2 =>
        rw [ht] at h
        cases h
        rcases List.mem_cons.mp hc2 with rfl | hc2
        · exact ⟨a, List.mem_cons_self a t, ha⟩
        · rcases ih t2 ht c2 hc2 with ⟨c, hc, hcn⟩
          exact ⟨c, List.mem_cons_of_mem a hc, hcn⟩

/-- Noise application preserves integer vectors at every node of the
result. -/
theorem apply_noise_intVec (m : Mech) (fam : SampleFamily) (rhos : List ℚ) :
    ∀ (b : Nat) (t : GNode), sizeOf t ≤ b →
      ∀ (lvl : Nat) (t2 : GNode),
        (∀ N ∈ t.nodes, intVec N.contingency_vector = true) →
        GNode.apply_noise (mechanismFun m fam) rhos lvl t = Except.ok t2 →
        ∀ N ∈ t2.nodes, intVec N.contingency_vector = true := by
  intro b
  induction b with
  | zero =>
    intro t hsz
    cases t with
    | mk i g cs v k => simp at hsz
  | succ b ih =>
    intro t hsz lvl t2 hint hok N hN
    cases t with
    | mk i g cs v k =>
      rw [GNode.apply_noise] at hok
      by_cases hlvl : lvl < rhos.length
      · rw [dif_pos hlvl] at hok
        cases hcs : applyNoiseList (mechanismFun m fam) rhos (lvl + 1) cs with
        | error e => rw [hcs] at hok; cases hok
        | ok cs2 =>
          rw [hcs] at hok
          cases hok
          rw [GNode.nodes_mk] at hN
          rcases List.mem_cons.mp hN with rfl | hdeep
          · refine intVec_mechanismFun m fam v _ ?_
            exact hint (GNode.mk i g cs v k) (self_mem_nodes _)
          · rcases mem_nodes_of_mem_gnodesList _ N hdeep with ⟨c2, hc2, hc2n⟩
            rcases applyNoiseList_inv (mechanismFun m fam) rhos (lvl + 1) cs cs2 hcs c2 hc2
              with ⟨c, hc, hcok⟩
            have hszc : sizeOf c ≤ b := by
              have h3 : sizeOf c < sizeOf cs := List.sizeOf_lt_of_mem hc
              simp only [GNode.mk.sizeOf_spec] at hsz
              omega
            refine ih c hszc (lvl + 1) c2 ?_ hcok N hc2n
            intro M hM
            exact hint M (by
              rw [GNode.nodes_mk]
              exact List.mem_cons_of_mem _ (mem_gnodesList_of_mem_nodes cs c M hc hM))
      · rw [dif_neg hlvl] at hok
        cases hok

/-- C10: measurement preserves integrality.  The histogram builder fills
every node with integer counts, and both mechanisms add exact integer
samples cell by cell, so when the measurement phase completes, every node
of the noised tree still holds an integer value in every cell (possibly
negative, never fractional). -/
theorem c10_measurement_preserves_integrality (m : Mech) (fam : SampleFamily) (rhos : List ℚ)
    (data : List Rec) (df_columns geo_columns queries : List String)
    (cdict : List (String × List Tmpl)) (root_cs : List Tmpl) (t2 : GNode)
    (hok : GNode.apply_noise (mechanismFun m fam) rhos 0
        (init_tree data df_columns geo_columns queries cdict root_cs) = Except.ok t2) :
    ∀ N ∈ t2.nodes, intVec N.contingency_vector = true := by
  refine apply_noise_intVec m fam rhos (sizeOf (init_tree data df_columns geo_columns queries cdict root_cs))
    _ (Nat.le_refl _) 0 t2 ?_ hok
  intro N hN
  rw [init_tree, GNode.nodes_mk] at hN
  rcases List.mem_cons.mp hN with rfl | hdeep
  · exact intVec_ccv ..
  · rw [construct_tree] at hdeep
    exact construct_tree_fuel_intVec _ _ _ _ _ _ _ N hdeep

/-- Evaluation of the measurement phase on the concrete tree under the
zero sample family. -/
theorem c10_run_eval :
    GNode.apply_noise (mechanismFun Mech.discrete_gaussian c10fam) [1, 2] 0 c10Tree
      = Except.ok c10Expected := by
  simp [GNode.apply_noise, applyNoiseList, mechanismFun, discrete_gaussian, c10fam,
    c10Expected, show c10Tree = GNode.mk 0 [] [GNode.mk 1 [("R", 1)] [] [1, 1] []] [1, 1] [] from rfl,
    List.enum, List.enumFrom]

/-- Witness for C10: on the measured concrete tree, the root vector is
integer-valued. -/
theorem c10_witness : intVec c10Expected.contingency_vector = true :=
  c10_measurement_preserves_integrality Mech.discrete_gaussian c10fam [1, 2] c2data
    ["R", "S"] ["R"] ["S"] c10dict [] c10Expected c10_run_eval c10Expected (self_mem_nodes _)

/-- Counting in a replicate is all-or-nothing. -/
theorem countP_replicate {α : Type} (p : α → Bool) (n : Nat) (a : α) :
    (List.replicate n a).countP p = if p a then n else 0 := by
  induction n with
  | zero => simp
  | succ n ih => by_cases h : p a <;> simp [List.replicate_succ, List.countP_cons, h, ih]

/-- Counting in a flattened list of lists sums the per-list counts. -/
theorem countP_flatten {α : Type} (p : α → Bool) (L : List (List α)) :
    L.flatten.countP p = (L.map (fun l => l.countP p)).sum := by
  induction L with
  | nil => simp
  | cons a t ih => simp [List.countP_append, ih]

/-- The microdata of a tree is the concatenation of its leaves'
emissions, in leaf order. -/
theorem microdata_eq_leafEmissions (permutation : List Tuple) :
    ∀ (b : Nat) (t : GNode), sizeOf t ≤ b →
      recursive_construct_microdata permutation t
        = ((t.leaves).map (leafEmission permutation)).flatten := by
  intro b
  induction b with
  | zero =>
    intro t hsz
    cases t with
    | mk i g cs v k => simp at hsz
  | succ b ih =>
    intro t hsz
    cases t with
    | mk i g cs v k =>
      by_cases hcs : cs.isEmpty
      · rcases List.isEmpty_iff.mp hcs with rfl
        rw [recursive_construct_microdata, GNode.leaves]
        simp [leafEmission, GNode.contingency_vector, GNode.geographic_values]
      · rw [recursive_construct_microdata, if_neg hcs, GNode.leaves, if_neg hcs]
        have hb : ∀ c ∈ cs, sizeOf c ≤ b := by
          intro c hc
          have h3 : sizeOf c < sizeOf cs := List.sizeOf_lt_of_mem hc
          simp only [GNode.mk.sizeOf_spec] at hsz
          omega
        clear hsz hcs
        induction cs with
        | nil => rfl
        | cons a t2 ih2 =>
          rw [microdataList, gleavesList]
          rw [ih a (hb a (List.mem_cons_self a t2)),
            ih2 (fun c hc => hb c (List.mem_cons_of_mem a hc))]
          simp [List.flatten_append]

/-- Count of a target row inside one leaf's emission: the cell's own
count when the target names the leaf's labels and the permutation row at
the target index. -/
theorem leafEmission_count_eq (g : List (String × Val)) :
    ∀ (permutation : List Tuple) (v : Vec) (j : Nat), permutation.Nodup →
      v.length = permutation.length → j < permutation.length →
      ((permutation.zip v).flatMap
          (fun p => List.replicate (repCount p.2) (g, p.1))).countP
          (fun r => decide (r = (g, permutation.getD j [])))
        = repCount (v.getD j 0) := by
  intro permutation
  induction permutation with
  | nil =>
    intro v j _ _ hj
    cases hj
  | cons c ct ihp =>
    intro v j hnd hlen hj
    cases v with
    | nil => simp at hlen
    | cons x vt =>
      have hlen2 : vt.length = ct.length := by
        simpa using hlen
      rw [List.zip_cons_cons, List.flatMap_cons, List.countP_append]
      cases j with
      | zero =>
        have hrest : ((ct.zip vt).flatMap
            (fun p => List.replicate (repCount p.2) (g, p.1))).countP
            (fun r => decide (r = (g, (c :: ct).getD 0 []))) = 0 := by
          rw [List.countP_eq_zero]
          intro r hr
          rcases List.mem_flatMap.mp hr with ⟨p, hp, hrep⟩
          rcases List.eq_of_mem_replicate hrep with rfl
          have hcell : p.1 ∈ ct := List.of_mem_zip hp |>.1
          have hne : p.1 ≠ c := by
            intro h
            exact (List.nodup_cons.mp hnd).1 (h ▸ hcell)
          simp [List.getD_cons_zero]
          intro h
          exact absurd h hne
        rw [hrest, countP_replicate]
        simp [List.getD_cons_zero]
      | succ j =>
        have hmem : ct.getD j [] ∈ ct :=
          getD_mem_of_lt ct j [] (by simpa using hj)
        have hne : c ≠ ct.getD j [] := by
          intro h
          exact (List.nodup_cons.mp hnd).1 (h ▸ hmem)
        have hne2 : ((g, c) : MicroRec) ≠ (g, ct.getD j []) := by
          intro h
          injection h with h1 h2
          exact hne h2
        have hhead : (List.replicate (repCount x) (g, c)).countP
            (fun r => decide (r = (g, (c :: ct).getD (j + 1) []))) = 0 := by
          rw [countP_replicate, List.getD_cons_succ]
          simp only [decide_eq_true_eq, Prod.mk.injEq, true_and, ite_eq_right_iff]
          intro h
          exact absurd h hne
        rw [hhead, List.getD_cons_succ, List.getD_cons_succ]
        rw [ihp vt j (List.nodup_cons.mp hnd).2 hlen2 (by simpa using hj)]
        simp

/-- A leaf with different labels contributes no row matching the target
labels. -/
theorem leafEmission_count_zero (permutation : List Tuple) (n : GNode)
    (g : List (String × Val)) (cell : Tuple) (hne : n.geographic_values ≠ g) :
    (leafEmission permutation n).countP (fun r => decide (r = (g, cell))) = 0 := by
  rw [List.countP_eq_zero]
  intro r hr
  rcases List.mem_flatMap.mp hr with ⟨p, _, hrep⟩
  rcases List.eq_of_mem_replicate hrep with rfl
  simp only [decide_eq_true_eq]
  intro h
  injection h with h1 h2
  exact hne h1

/-- Across leaves with pairwise distinct labels, only the target leaf's
emission contributes to the count of one of its rows. -/
theorem sum_leafEmission_counts (permutation : List Tuple) (cell : Tuple) :
    ∀ (ls : List GNode) (target : GNode), target ∈ ls →
      ((ls.map (fun n : GNode => n.geographic_values)).Nodup) →
      ((ls.map (leafEmission permutation)).map
          (fun l => l.countP (fun r => decide (r = (target.geographic_values, cell))))).sum
        = (leafEmission permutation target).countP
            (fun r => decide (r = (target.geographic_values, cell))) := by
  intro ls
  induction ls with
  | nil =>
    intro target hmem
    cases hmem
  | cons a t ih =>
    intro target hmem hnd
    rw [List.map_cons, List.map_cons, List.sum_cons]
    rcases List.mem_cons.mp hmem with rfl | hmem2
    · have hzero : ((t.map (leafEmission permutation)).map
          (fun l => l.countP (fun r => decide (r = (target.geographic_values, cell))))).sum = 0 := by
        rw [List.sum_eq_zero]
        intro x hx
        rcases List.mem_map.mp hx with ⟨l, hl, rfl⟩
        rcases List.mem_map.mp hl with ⟨n, hn, rfl⟩
        refine leafEmission_count_zero permutation n _ cell ?_
        intro h
        exact (List.nodup_cons.mp hnd).1 (List.mem_map.mpr ⟨n, hn, h⟩)
      rw [hzero]
      exact Nat.add_zero _
    · have hzero : (leafEmission permutation a).countP
          (fun r => decide (r = (target.geographic_values, cell))) = 0 := by
        refine leafEmission_count_zero permutation a _ cell ?_
        intro h
        exact (List.nodup_cons.mp hnd).1 (by
          show a.geographic_values ∈ List.map (fun n : GNode => n.geographic_values) t
          rw [h]
          exact List.mem_map.mpr ⟨target, hmem2, rfl⟩)
      rw [hzero, ih target hmem2 (List.nodup_cons.mp hnd).2]
      exact Nat.zero_add _

/-- C6: the microdata of a tree with distinctly labelled leaves contains,
for every leaf and every cell index below the permutation length, exactly
the cell's count of rows pairing that leaf's geographic labels with the
permutation row at that index — the multiset of emitted rows is the one the
leaf vectors imply. -/
theorem c6_microdata_counts (permutation : List Tuple) (t : GNode)
    (hnd : permutation.Nodup)
    (hlab : (t.leaves.map (fun n : GNode => n.geographic_values)).Nodup)
    (hlen : ∀ l ∈ t.leaves, l.contingency_vector.length = permutation.length)
    (hint : ∀ l ∈ t.leaves, ∀ x ∈ l.contingency_vector, 0 ≤ x ∧ x.den = 1) :
    ∀ l ∈ t.leaves, ∀ j : Nat, j < permutation.length →
      (((recursive_construct_microdata permutation t).countP
          (fun r => decide (r = (l.geographic_values, permutation.getD j []))) : ℕ) : ℚ)
        = l.contingency_vector.getD j 0 := by
  intro l hl j hj
  rw [microdata_eq_leafEmissions permutation (sizeOf t) t (Nat.le_refl _), countP_flatten]
  rw [sum_leafEmission_counts permutation (permutation.getD j []) t.leaves l hl hlab]
  rw [show leafEmission permutation l = ((permutation.zip l.contingency_vector).flatMap
      (fun p => List.replicate (repCount p.2) (l.geographic_values, p.1))) from rfl]
  rw [leafEmission_count_eq l.geographic_values permutation l.contingency_vector j hnd
    (hlen l hl) hj]
  obtain ⟨hpos, hden⟩ := hint l hl (l.contingency_vector.getD j 0)
    (getD_mem_of_lt _ j 0 (by rw [hlen l hl]; exact hj))
  rw [repCount]
  have h1 : ((l.contingency_vector.getD j 0).num : ℚ) = l.contingency_vector.getD j 0 :=
    Rat.coe_int_num_of_den_eq_one hden
  have h2 : ⌊l.contingency_vector.getD j 0⌋ = (l.contingency_vector.getD j 0).num := by
    rw [← h1]
    exact Int.floor_intCast _
  have h3 : 0 ≤ (l.contingency_vector.getD j 0).num := by
    rw [← h1] at hpos
    exact_mod_cast hpos
  rw [h2]
  calc (((l.contingency_vector.getD j 0).num.toNat : ℕ) : ℚ)
      = (((l.contingency_vector.getD j 0).num.toNat : ℤ) : ℚ) := (Int.cast_natCast _).symm
    _ = ((l.contingency_vector.getD j 0).num : ℚ) := by rw [Int.toNat_of_nonneg h3]
    _ = l.contingency_vector.getD j 0 := h1

/-- Witness for C6: in the microdata of the two-leaf tree, the row pairing
the first leaf's label with the first permutation cell appears exactly
twice, the value of that leaf's first cell. -/
theorem c6_witness :
    (((recursive_construct_microdata c2perm c6Tree).countP
        (fun r => decide (r = ([("R", 1)], [0]))) : ℕ) : ℚ) = (2 : ℚ) :=
  c6_microdata_counts c2perm c6Tree (by decide) (by decide) (by decide) (by decide)
    (GNode.mk 1 [("R", 1)] [] [2, 1] [])
    (List.mem_cons_self _ _) 0 (by decide)

/-- The strided take of the empty list is empty at any fuel. -/
theorem strideTake_nil (f step : Nat) : strideTake f [] step = [] := by
  cases f <;> rfl

/-- The strided take does not depend on the fuel once the fuel covers the
list. -/
theorem strideTake_congr : ∀ (f1 f2 : Nat) (l : Vec) (step : Nat),
    l.length ≤ f1 → l.length ≤ f2 → 1 ≤ step →
    strideTake f1 l step = strideTake f2 l step := by
  intro f1
  induction f1 with
  | zero =>
    intro f2 l step h1 _ _
    rcases List.eq_nil_of_length_eq_zero (Nat.le_zero.mp h1) with rfl
    rw [strideTake_nil, strideTake_nil]
  | succ f1 ih =>
    intro f2 l step h1 h2 hstep
    cases l with
    | nil => rw [strideTake_nil, strideTake_nil]
    | cons a rest =>
      cases f2 with
      | zero => simp at h2
      | succ f2 =>
        rw [strideTake, strideTake]
        congr 1
        refine ih f2 _ step ?_ ?_ hstep
        · rw [List.length_drop]
          simp only [List.length_cons] at h1 ⊢
          omega
        · rw [List.length_drop]
          simp only [List.length_cons] at h2 ⊢
          omega

/-- Peeling the first width-w block off an extended slice l[j::w]. -/
theorem pyStride_append (l1 l2 : Vec) (j w : Nat) (hw : 1 ≤ w) (hj : j < w)
    (hl : l1.length = w) :
    pyStride (l1 ++ l2) j w = l1.getD j 0 :: pyStride l2 j w := by
  rw [pyStride, pyStride]
  have hdrop : (l1 ++ l2).drop j = l1.drop j ++ l2 :=
    List.drop_append_of_le_length (by omega)
  have hlen1 : (l1.drop j).length = w - j := by
    rw [List.length_drop, hl]
  obtain ⟨x, xs, hx⟩ : ∃ x xs, l1.drop j = x :: xs := by
    cases hcase : l1.drop j with
    | nil =>
      rw [hcase] at hlen1
      simp at hlen1
      omega
    | cons x xs => exact ⟨x, xs, rfl⟩
  have hhead : x = l1.getD j 0 := by
    have h0 : (l1.drop j)[0]? = l1[j]? := by
      rw [List.getElem?_drop, Nat.add_zero]
    rw [hx] at h0
    rw [List.getD_eq_getElem?_getD, ← h0]
    simp
  have hxslen : xs.length = w - j - 1 := by
    rw [hx] at hlen1
    simp only [List.length_cons] at hlen1
    omega
  rw [hdrop, hx]
  have hfuel : strideTake (l1 ++ l2).length (x :: xs ++ l2) w
      = strideTake ((xs ++ l2).length + 1) (x :: xs ++ l2) w := by
    refine strideTake_congr _ _ _ w ?_ ?_ hw
    · simp only [List.cons_append, List.length_cons, List.length_append, hl]
      omega
    · simp
  rw [hfuel, List.cons_append, strideTake, ← hhead]
  congr 1
  have hdrop2 : (x :: (xs ++ l2)).drop w = l2.drop j := by
    have hxcons : (x :: (xs ++ l2)) = (x :: xs) ++ l2 := by simp
    rw [hxcons, List.drop_append_eq_append_drop]
    have hlen3 : (x :: xs).length = w - j := by
      simp only [List.length_cons]
      omega
    rw [List.drop_eq_nil_of_le (by omega), List.nil_append, hlen3]
    congr 1
    omega
  rw [hdrop2]
  refine strideTake_congr _ _ _ w ?_ ?_ hw
  · rw [List.length_drop]
    simp only [List.length_append]
    omega
  · rw [List.length_drop]
    omega

/-- The split of the joint solution has one slice per child. -/
theorem splitJoint_length (w : Nat) : ∀ (m : Nat) (sol : Vec),
    (splitJoint w m sol).length = m := by
  intro m
  induction m with
  | zero => intro sol; rfl
  | succ m ih =>
    intro sol
    rw [splitJoint, List.length_cons, ih]

/-- Summing one cell across the slices of the split equals the sum of the
corresponding extended slice of the joint solution. -/
theorem splitJoint_sum_stride (w : Nat) (hw : 1 ≤ w) :
    ∀ (m : Nat) (sol : Vec) (j : Nat), j < w → sol.length = m * w →
      ((splitJoint w m sol).map (fun ch => ch.getD j 0)).sum = (pyStride sol j w).sum := by
  intro m
  induction m with
  | zero =>
    intro sol j _ hlen
    rcases List.eq_nil_of_length_eq_zero (by simpa using hlen) with rfl
    simp [splitJoint, pyStride, strideTake_nil]
  | succ m ih =>
    intro sol j hj hlen
    have hmul : (m + 1) * w = m * w + w := Nat.succ_mul m w
    have htake : (sol.take w).length = w := by
      rw [List.length_take]
      omega
    rw [splitJoint, List.map_cons, List.sum_cons]
    conv_rhs => rw [(List.take_append_drop w sol).symm]
    rw [pyStride_append (sol.take w) (sol.drop w) j w hw hj htake, List.sum_cons]
    congr 1
    refine ih (sol.drop w) j hj ?_
    rw [List.length_drop]
    omega

/-- Length of a cellwise sum. -/
theorem addVec_length (a b : Vec) : (addVec a b).length = min a.length b.length := by
  rw [addVec, List.length_map, List.length_zip]

/-- Length of the floor vector. -/
theorem floorVec_length (a : Vec) : (floorVec a).length = a.length := by
  rw [floorVec, List.length_map]

/-- The joint vector of children with width-w vectors has length m * w. -/
theorem jointVector_length (w : Nat) : ∀ (cs : List GNode),
    (∀ c ∈ cs, c.contingency_vector.length = w) →
    (jointVector cs).length = cs.length * w := by
  intro cs
  induction cs with
  | nil => intro _; simp [jointVector]
  | cons c t ih =>
    intro h
    have hstep : jointVector (c :: t) = c.contingency_vector ++ jointVector t := by
      rw [jointVector, List.map_cons, List.flatten_cons, jointVector]
    rw [hstep, List.length_append, h c (List.mem_cons_self c t),
      ih (fun x hx => h x (List.mem_cons_of_mem c hx))]
    have hmul : (t.length + 1) * w = t.length * w + w := Nat.succ_mul t.length w
    rw [List.length_cons, hmul]
    omega

/-- A successful estimation pass writes the assigned vector into the
node. -/
theorem recursive_estimation_ok_cv (s1 : Stage1Solver) (s2 : Stage2Solver) (w : Nat)
    (n : GNode) (nv : Vec) (n2 : GNode)
    (h : recursive_estimation s1 s2 w n nv = Except.ok n2) :
    n2.contingency_vector = nv := by
  cases n with
  | mk i g cs v k =>
    rw [recursive_estimation] at h
    by_cases hcs : cs.isEmpty
    · rw [if_pos hcs] at h
      cases h
      rfl
    · rw [if_neg hcs] at h
      simp only [] at h
      split at h
      · cases h
      · cases h
      · split at h
        · cases h
        · cases h
          rfl

/-- Inversion of the child-list estimation loop: the outputs correspond
pointwise to the zipped inputs. -/
theorem recEstList_forall2 (s1 : Stage1Solver) (s2 : Stage2Solver) (w : Nat) :
    ∀ (ns : List GNode) (chs : List Vec) (ns2 : List GNode),
      recEstList s1 s2 w ns chs = Except.ok ns2 →
      List.Forall₂ (fun (p : GNode × Vec) n2 =>
        recursive_estimation s1 s2 w p.1 p.2 = Except.ok n2) (ns.zip chs) ns2 := by
  intro ns
  induction ns with
  | nil =>
    intro chs ns2 h
    rw [recEstList] at h
    cases h
    exact List.Forall₂.nil
  | cons n ns ih =>
    intro chs ns2 h
    cases chs with
    | nil =>
      rw [recEstList] at h
      cases h
      exact List.Forall₂.nil
    | cons ch chs =>
      rw [recEstList] at h
      cases hn : recursive_estimation s1 s2 w n ch with
      | error e => rw [hn] at h; cases h
      | ok n2 =>
        rw [hn] at h
        cases hns : recEstList s1 s2 w ns chs with
        | error e => rw [hns] at h; cases h
        | ok t2 =>
          rw [hns] at h
          cases h
          exact List.Forall₂.cons hn (ih chs t2 hns)

/-- Pointwise-related lists have equal sums of corresponding images. -/
theorem forall2_map_sum {α β : Type} {M : Type} [AddCommMonoid M]
    (R : α → β → Prop) (f : β → M) (g : α → M)
    (hfg : ∀ a b, R a b → f b = g a) :
    ∀ (l1 : List α) (l2 : List β), List.Forall₂ R l1 l2 →
      (l2.map f).sum = (l1.map g).sum := by
  intro l1
  induction l1 with
  | nil =>
    intro l2 h
    cases h
    rfl
  | cons a t ih =>
    intro l2 h
    cases h with
    | cons hab htail =>
      rename_i b t2
      rw [List.map_cons, List.map_cons, List.sum_cons, List.sum_cons, ih t2 htail,
        hfg a b hab]

/-- Members of the right list of a pointwise relation have related left
partners. -/
theorem forall2_mem_right {α β : Type} (R : α → β → Prop) :
    ∀ (l1 : List α) (l2 : List β), List.Forall₂ R l1 l2 →
      ∀ b ∈ l2, ∃ a ∈ l1, R a b := by
  intro l1
  induction l1 with
  | nil =>
    intro l2 h
    cases h
    intro b hb
    cases hb
  | cons a t ih =>
    intro l2 h
    cases h with
    | cons hab htail =>
      rename_i b2 t2
      intro b hb
      rcases List.mem_cons.mp hb with rfl | hb
      · exact ⟨a, List.mem_cons_self a t, hab⟩
      · rcases ih t2 htail b hb with ⟨a2, ha2, hr⟩
        exact ⟨a2, List.mem_cons_of_mem a ha2, hr⟩

/-- Mapping the second component over a zip against a shorter-or-equal
second list is mapping over that list. -/
theorem zip_map_snd {α β γ : Type} (f : β → γ) :
    ∀ (l1 : List α) (l2 : List β), l2.length ≤ l1.length →
      (l1.zip l2).map (fun p => f p.2) = l2.map f := by
  intro l1
  induction l1 with
  | nil =>
    intro l2 h
    rcases List.eq_nil_of_length_eq_zero (Nat.le_zero.mp (by simpa using h)) with rfl
    rfl
  | cons a t ih =>
    intro l2 h
    cases l2 with
    | nil => rfl
    | cons b t2 =>
      rw [List.zip_cons_cons, List.map_cons, List.map_cons, ih t2 (by simpa using h)]

/-- Nodes below the children are nodes of the tree. -/
theorem mem_nodes_of_children (t M : GNode) (h : M ∈ gnodesList t.children) : M ∈ t.nodes := by
  cases t
  rw [GNode.nodes_mk]
  exact List.mem_cons_of_mem _ h

/-- C1: after the recursive estimation completes without infeasibility,
every non-leaf node of the resulting tree satisfies cellwise hierarchical
consistency: at each cell index below the vector width, the children's
values sum to the parent's fixed value, because the consistency constraints
per cell index equate the strided slice of the joint solution with the
parent's already-fixed entry, and the solver's solution satisfies every
posted constraint. -/
theorem c1_hierarchical_consistency (s1 : Stage1Solver) (s2 : Stage2Solver)
    (hs1 : Stage1Dim s1) (hs2 : Stage2Sound s2) (w : Nat) (hw : 1 ≤ w)
    (node : GNode) (nv : Vec) (node2 : GNode)
    (hlen : ∀ N ∈ gnodesList node.children, N.contingency_vector.length = w)
    (hok : recursive_estimation s1 s2 w node nv = Except.ok node2) :
    ∀ N ∈ node2.nodes, N.children.isEmpty = false →
      ∀ j : Nat, j < w → childSumAt N j = N.contingency_vector.getD j 0 := by
  have main : ∀ (b : Nat) (node : GNode), sizeOf node ≤ b →
      ∀ (nv : Vec) (node2 : GNode),
        (∀ N ∈ gnodesList node.children, N.contingency_vector.length = w) →
        recursive_estimation s1 s2 w node nv = Except.ok node2 →
        ∀ N ∈ node2.nodes, N.children.isEmpty = false →
          ∀ j : Nat, j < w → childSumAt N j = N.contingency_vector.getD j 0 := by
    intro b
    induction b with
    | zero =>
      intro node hsz
      cases node with
      | mk i g cs v k => simp at hsz
    | succ b ih =>
      intro node hsz nv node2 hlen hok N hN hNc j hj
      cases node with
      | mk i g cs v k =>
        rw [recursive_estimation] at hok
        by_cases hcs : cs.isEmpty
        · rw [if_pos hcs] at hok
          cases hok
          rw [GNode.nodes_mk] at hN
          rcases List.mem_cons.mp hN with rfl | hdeep
          · rw [show (GNode.mk i g cs nv k).children = cs from rfl] at hNc
            rw [hcs] at hNc
            exact absurd hNc (by decide)
          · rcases List.isEmpty_iff.mp hcs with rfl
            cases hdeep
        · rw [if_neg hcs] at hok
          simp only [] at hok
          cases hs1c : s1 (jointVector cs) (liftedConstraints w cs ++ consistencyConstraints w nv) with
          | none =>
            simp only [non_negative_real_estimation, hs1c, rounding_estimation] at hok
            exact Except.noConfusion hok
          | some xt =>
            simp only [non_negative_real_estimation, hs1c] at hok
            cases hs2c : s2 (floorVec xt) (subVec xt (floorVec xt))
                (liftedConstraints w cs ++ consistencyConstraints w nv) with
            | none =>
              simp only [rounding_estimation, hs2c] at hok
              exact Except.noConfusion hok
            | some y =>
              simp only [rounding_estimation, hs2c] at hok
              cases hrl : recEstList s1 s2 w cs
                  (splitJoint w cs.length (addVec (floorVec xt) y)) with
              | error e => rw [hrl] at hok; cases hok
              | ok cs2 =>
                rw [hrl] at hok
                cases hok
                have hclen : ∀ c ∈ cs, c.contingency_vector.length = w := by
                  intro c hc
                  exact hlen c (mem_gnodesList_of_mem_nodes cs c c hc (self_mem_nodes c))
                have hjlen : (jointVector cs).length = cs.length * w :=
                  jointVector_length w cs hclen
                have hxtlen : xt.length = cs.length * w := by
                  rw [hs1 _ _ _ hs1c]
                  exact hjlen
                have hylen : y.length = xt.length := by
                  have h5 := (hs2 _ _ _ _ hs2c).1
                  rw [h5, floorVec_length]
                have hsol : (addVec (floorVec xt) y).length = cs.length * w := by
                  rw [addVec_length, floorVec_length, hylen, Nat.min_self, hxtlen]
                have hconsis : ∀ jj, jj < w →
                    (pyStride (addVec (floorVec xt) y) jj w).sum = nv.getD jj 0 := by
                  intro jj hjj
                  have hmem : (fun joint_vector =>
                      decide ((pyStride joint_vector jj w).sum = nv.getD jj 0))
                      ∈ (liftedConstraints w cs ++ consistencyConstraints w nv) :=
                    List.mem_append_right _
                      (List.mem_map.mpr ⟨jj, List.mem_range.mpr hjj, rfl⟩)
                  have h6 := (hs2 _ _ _ _ hs2c).2 _ hmem
                  exact of_decide_eq_true h6
                have hf2 := recEstList_forall2 s1 s2 w cs
                  (splitJoint w cs.length (addVec (floorVec xt) y)) cs2 hrl
                rw [GNode.nodes_mk] at hN
                rcases List.mem_cons.mp hN with rfl | hdeep
                · rw [childSumAt, show (GNode.mk i g cs2 nv k).children = cs2 from rfl,
                    show (GNode.mk i g cs2 nv k).contingency_vector = nv from rfl]
                  have hsum1 : (cs2.map (fun c => c.contingency_vector.getD j 0)).sum
                      = ((cs.zip (splitJoint w cs.length (addVec (floorVec xt) y))).map
                          (fun p => p.2.getD j 0)).sum :=
                    forall2_map_sum _ (fun c => c.contingency_vector.getD j 0)
                      (fun p => p.2.getD j 0)
                      (fun p n2 hr => by
                        show n2.contingency_vector.getD j 0 = p.2.getD j 0
                        rw [recursive_estimation_ok_cv s1 s2 w p.1 p.2 n2 hr]) _ _ hf2
                  have hzip := zip_map_snd (fun ch : Vec => ch.getD j 0) cs
                    (splitJoint w cs.length (addVec (floorVec xt) y))
                    (by rw [splitJoint_length])
                  rw [hsum1, hzip,
                    splitJoint_sum_stride w hw cs.length _ j hj hsol]
                  exact hconsis j hj
                · rcases mem_nodes_of_mem_gnodesList cs2 N hdeep with ⟨c2, hc2, hc2n⟩
                  rcases forall2_mem_right _ _ _ hf2 c2 hc2 with ⟨p, hp, hpr⟩
                  have hp1 : p.1 ∈ cs := (List.of_mem_zip hp).1
                  have hszc : sizeOf p.1 ≤ b := by
                    have h3 : sizeOf p.1 < sizeOf cs := List.sizeOf_lt_of_mem hp1
                    simp only [GNode.mk.sizeOf_spec] at hsz
                    omega
                  refine ih p.1 hszc p.2 c2 ?_ hpr N hc2n hNc j hj
                  intro M hM
                  refine hlen M (mem_gnodesList_of_mem_nodes cs p.1 M hp1 ?_)
                  exact mem_nodes_of_children p.1 M hM
  exact main (sizeOf node) node (Nat.le_refl _) nv node2 hlen hok

/-- The identity Stage-1 solver returns vectors of the requested
dimension. -/
theorem idStage1_dim : Stage1Dim idStage1 := by
  intro v cs x h
  cases h
  rfl

/-- The checking Stage-2 solver is sound: it returns its candidate only
after verifying the dimension and every model constraint. -/
theorem cannedStage2_sound (y0 : Vec) : Stage2Sound (cannedStage2 y0) := by
  intro xf r cs y h
  rw [cannedStage2] at h
  by_cases hc : (y0.length == xf.length && cs.all (fun c => c (addVec xf y0))) = true
  · rw [if_pos hc] at h
    cases h
    rcases (Bool.and_eq_true _ _).mp hc with ⟨h1, h2⟩
    exact ⟨beq_iff_eq.mp h1, List.all_eq_true.mp h2⟩
  · rw [if_neg hc] at h
    cases h

/-- Evaluation of the estimation pass on the two-leaf parent under the
concrete solvers: the children are reassigned the slices [2] and [0]. -/
theorem c1_run_eval :
    recursive_estimation idStage1 c1Solver2 1 c1Node [2] = Except.ok c1Expected := by
  norm_num [recursive_estimation, recEstList, c1Node, c1Expected, c1Solver2, cannedStage2,
    idStage1, non_negative_real_estimation, rounding_estimation, liftedConstraints,
    consistencyConstraints, jointVector, addVec, floorVec, subVec, pyStride, strideTake,
    splitJoint, GNode.contingency_vector, GNode.children, GNode.constraints,
    List.all_cons, List.all_nil, List.enum, List.enumFrom, List.zip_cons_cons,
    List.range_succ, pySlice]

/-- Witness for C1: on the concrete estimated tree, the children's cell-0
values sum to the parent's fixed cell-0 value. -/
theorem c1_witness : childSumAt c1Expected 0 = c1Expected.contingency_vector.getD 0 0 :=
  c1_hierarchical_consistency idStage1 c1Solver2 idStage1_dim (cannedStage2_sound [-1, -4])
    1 (Nat.le_refl 1) c1Node [2] c1Expected (by decide) c1_run_eval
    c1Expected (self_mem_nodes c1Expected) rfl 0 (Nat.lt_irrefl 0 |> fun _ => Nat.zero_lt_one)
